import Mathlib

/-!
Verification of the simplestream-maintainer core (catalog build, item
classification, checksum parsing, atomic publication and pruning) against a
shallow embedding of its source.

Modelling conventions:
* Go strings are modelled as lists of characters (`GoStr`); Go maps as
  association lists (`alookup` / `aput`), where `aput` mirrors map
  assignment (replace the entry or append it).
* Filesystem reads are inputs: a directory listing is a list of
  (name, isDir) pairs, file hashing is an oracle function, and the contents
  of auxiliary files (SHA256SUMS lines, the parse result of image.yaml) are
  supplied alongside the listing.
* A Go run-time panic (out-of-range slice index, assignment to an entry of a
  nil map) is modelled as `none` of an `Option`-valued result.
-/

namespace SSM

/-- Go strings, modelled as lists of characters. -/
abbrev GoStr := List Char

/-- View a Lean string literal as a `GoStr`. -/
def gs (s : String) : GoStr := s.data

/-- Lookup in a Go map modelled as an association list. -/
def alookup {α : Type} : List (GoStr × α) → GoStr → Option α
  | [], _ => none
  | (k, v) :: rest, key => if k = key then some v else alookup rest key

/-- Go map assignment `m[k] = v`: replace the existing entry or append a new
one. -/
def aput {α : Type} : List (GoStr × α) → GoStr → α → List (GoStr × α)
  | [], k, v => [(k, v)]
  | (k', v') :: rest, k, v => if k' = k then (k, v) :: rest else (k', v') :: aput rest k v

/-- Key list of a Go map modelled as an association list. -/
def akeys {α : Type} (m : List (GoStr × α)) : List GoStr := m.map Prod.fst

/-- strings.Split for a one-character separator; splitting the empty string
gives [""], and the result is never empty. -/
def splitOnChar (c : Char) : List Char → List (List Char)
  | [] => [[]]
  | a :: rest =>
      if a = c then [] :: splitOnChar c rest
      else
        match splitOnChar c rest with
        | [] => [[a]]
        | s :: ss => (a :: s) :: ss

theorem splitOnChar_ne_nil (c : Char) (l : List Char) : splitOnChar c l ≠ [] := by
  induction l with
  | nil => simp [splitOnChar]
  | cons a rest ih =>
      by_cases h : a = c
      · simp [splitOnChar, h]
      · simp only [splitOnChar, if_neg h]
        cases hs : splitOnChar c rest with
        | nil => exact absurd hs (by simpa using ih)
        | cons s ss => simp

theorem splitOnChar_cons_ne (c a : Char) (l : List Char) (h : a ≠ c) :
    splitOnChar c (a :: l) =
      (a :: (splitOnChar c l).headD []) :: (splitOnChar c l).tail := by
  simp only [splitOnChar, if_neg h]
  cases hs : splitOnChar c l with
  | nil => exact absurd hs (splitOnChar_ne_nil c l)
  | cons s ss => simp

theorem splitOnChar_append_cons (c : Char) (xs ys : List Char) :
    splitOnChar c (xs ++ c :: ys) = splitOnChar c xs ++ splitOnChar c ys := by
  induction xs with
  | nil => simp [splitOnChar]
  | cons a rest ih =>
      by_cases h : a = c
      · simp [splitOnChar, h, ih]
      · rw [List.cons_append, splitOnChar_cons_ne c a _ h, splitOnChar_cons_ne c a rest h, ih]
        cases hs : splitOnChar c rest with
        | nil => exact absurd hs (splitOnChar_ne_nil c rest)
        | cons s ss => simp

theorem splitOnChar_of_not_mem {c : Char} {l : List Char} (h : c ∉ l) :
    splitOnChar c l = [l] := by
  induction l with
  | nil => simp [splitOnChar]
  | cons a rest ih =>
      have ha : a ≠ c := fun e => h (by simp [e])
      have hr : c ∉ rest := fun e => h (by simp [e])
      simp [splitOnChar, ha, ih hr]

/-- Inverse of `splitOnChar`: rejoin the parts with the separator. -/
def joinChar (c : Char) : List (List Char) → List Char
  | [] => []
  | [s] => s
  | s :: rest => s ++ c :: joinChar c rest

theorem joinChar_splitOnChar (c : Char) (l : List Char) :
    joinChar c (splitOnChar c l) = l := by
  induction l with
  | nil => simp [splitOnChar, joinChar]
  | cons a rest ih =>
      by_cases h : a = c
      · subst h
        simp only [splitOnChar, if_pos rfl]
        cases hs : splitOnChar a rest with
        | nil => exact absurd hs (splitOnChar_ne_nil a rest)
        | cons s ss => rw [hs] at ih; simpa [joinChar] using ih
      · simp only [splitOnChar, if_neg h]
        cases hs : splitOnChar c rest with
        | nil => exact absurd hs (splitOnChar_ne_nil c rest)
        | cons s ss =>
            rw [hs] at ih
            cases ss with
            | nil => simpa [joinChar] using ih
            | cons t ts => simpa [joinChar] using ih

theorem joinChar_append_singleton (c : Char) (ps : List (List Char)) (x : List Char)
    (h : ps ≠ []) : joinChar c (ps ++ [x]) = joinChar c ps ++ c :: x := by
  induction ps with
  | nil => exact absurd rfl h
  | cons s rest ih =>
      cases rest with
      | nil => simp [joinChar]
      | cons t ts =>
          have h2 : joinChar c (t :: (ts ++ [x])) = joinChar c (t :: ts) ++ c :: x := by
            simpa using ih (by simp)
          calc joinChar c ((s :: t :: ts) ++ [x])
              = s ++ c :: joinChar c (t :: (ts ++ [x])) := rfl
            _ = s ++ c :: (joinChar c (t :: ts) ++ c :: x) := by rw [h2]
            _ = (s ++ c :: joinChar c (t :: ts)) ++ c :: x := by simp
            _ = joinChar c (s :: t :: ts) ++ c :: x := rfl

/-- strings.HasSuffix. -/
def goHasSuffix (s suffix0 : GoStr) : Bool := suffix0.isSuffixOf s

theorem goHasSuffix_iff (s suffix0 : GoStr) :
    goHasSuffix s suffix0 = true ↔ ∃ t, s = t ++ suffix0 := by
  constructor
  · intro h
    rcases (List.isSuffixOf_iff_suffix.mp h) with ⟨t, ht⟩
    exact ⟨t, ht.symm⟩
  · rintro ⟨t, rfl⟩
    exact List.isSuffixOf_iff_suffix.mpr ⟨t, rfl⟩

/-- Modelled from the spec: shared.HasSuffix (package shared is not among the
sources) checks whether the name carries one of the listed suffixes; per its
call site this selects files whose name has one of the allowed item
extensions. -/
def sharedHasSuffix (s : GoStr) (suffixes : List GoStr) : Bool :=
  suffixes.any (fun suf => goHasSuffix s suf)

/-- filepath.Ext restricted to a bare file name (the source applies it to the
full item path; Ext only inspects the final path element, that is the file
name). Empty for a name without a dot, otherwise a dot followed by the part
after the final dot. -/
def goExt (name : GoStr) : GoStr :=
  let parts := splitOnChar '.' name
  if parts.length ≤ 1 then [] else '.' :: parts.getLastD []

/-- Go slice indexing: an out-of-range access (negative index included) is a
run-time panic, modelled as none. -/
def goIndex {α : Type} (l : List α) (i : Int) : Option α :=
  if i < 0 then none else l.get? i.toNat

/-- filepath.Join / path.Join for the non-empty, already clean path components
appearing in this model. -/
def goJoin (a b : GoStr) : GoStr := a ++ '/' :: b

/-- Characters treated as whitespace by strings.TrimSpace. The source trims
per unicode.IsSpace; checksum lines are ASCII, so the model uses the ASCII
whitespace characters. -/
def goIsSpace (c : Char) : Bool :=
  c = ' ' || c = '\t' || c = '\n' || c = '\x0b' || c = '\x0c' || c = '\r'

/-- strings.TrimSpace: drop leading and trailing whitespace. -/
def goTrimSpace (s : GoStr) : GoStr :=
  ((s.dropWhile goIsSpace).reverse.dropWhile goIsSpace).reverse

/-- strings.SplitN(s, sep, 2) for a one-character separator: at most one
split, at the first occurrence of the separator; the result has one element
when the separator does not occur, and two otherwise. -/
def goSplitN2 (sep : Char) : GoStr → List GoStr
  | [] => [[]]
  | c :: rest =>
      if c = sep then [[], rest]
      else
        match goSplitN2 sep rest with
        | [] => [[c]]
        | [x] => [c :: x]
        | x :: xs => (c :: x) :: xs

/-- ReadChecksumFile (stream/stream.go): parse the lines of a SHA256SUMS file
into a map of filename/checksum pairs. Each line is trimmed, split at most
once on a space character, and skipped when the split does not yield two
parts; the filename part is trimmed again. The file's lines (as produced by
bufio.Scanner) are the input. -/
def ReadChecksumFile (lines : List GoStr) : List (GoStr × GoStr) :=
  lines.foldl (fun checksums line =>
    let l := goTrimSpace line
    let parts := goSplitN2 ' ' l
    if parts.length = 2 then
      aput checksums (goTrimSpace (parts.getD 1 [])) (parts.getD 0 [])
    else checksums) []

/-- Split a string at the first space character U+0020, if any. Used to state
the amended specification of the checksum parser. -/
def firstSpaceSplit : GoStr → Option (GoStr × GoStr)
  | [] => none
  | c :: rest =>
      if c = ' ' then some ([], rest)
      else (firstSpaceSplit rest).map (fun p => (c :: p.1, p.2))

/-- Amended specification of the checksum parser: after trimming a line, the
two fields are separated at the first space character only (other whitespace
such as a tab does not separate); a trimmed line containing no space yields
no entry; the filename field is trimmed again. -/
def readChecksumsFirstSpace (lines : List GoStr) : List (GoStr × GoStr) :=
  lines.foldl (fun checksums line =>
    match firstSpaceSplit (goTrimSpace line) with
    | none => checksums
    | some (hex, rest) => aput checksums (goTrimSpace rest) hex) []

theorem goSplitN2_eq_firstSpaceSplit (l : GoStr) :
    goSplitN2 ' ' l =
      match firstSpaceSplit l with
      | none => [l]
      | some (a, b) => [a, b] := by
  induction l with
  | nil => simp [goSplitN2, firstSpaceSplit]
  | cons c rest ih =>
      by_cases h : c = ' '
      · simp [goSplitN2, firstSpaceSplit, h]
      · simp only [goSplitN2, firstSpaceSplit, if_neg h]
        cases hf : firstSpaceSplit rest with
        | none =>
            rw [hf] at ih
            simp only at ih
            simp [ih]
        | some p =>
            rw [hf] at ih
            simp only at ih
            simp [ih]

/-- C8 (amended). ReadChecksumFile returns a map sending filename to hex
checksum with one entry per line that, after trimming, contains a space
character: the hex field is the part before the first space and the filename
is the trimmed part after it. Lines whose fields are separated only by other
whitespace (such as a tab) do not split and are silently ignored. -/
theorem ReadChecksumFile_eq_firstSpace (lines : List GoStr) :
    ReadChecksumFile lines = readChecksumsFirstSpace lines := by
  unfold ReadChecksumFile readChecksumsFirstSpace
  congr 1
  funext checksums line
  simp only [goSplitN2_eq_firstSpaceSplit]
  cases hf : firstSpaceSplit (goTrimSpace line) with
  | none => simp
  | some p => obtain ⟨a, b⟩ := p; simp [aput]

/-- C8 (counterexample). The line "aa\tbb" consists of two whitespace-
separated fields, so under the claim the parser should map "bb" to "aa"; the
code splits only on the space character, does not split this line, and
silently ignores it. -/
theorem ReadChecksumFile_tab_ignored :
    ReadChecksumFile [gs "aa\tbb"] = [] ∧
      alookup (ReadChecksumFile [gs "aa\tbb"]) (gs "bb") = none := ⟨rfl, rfl⟩

theorem goExt_ne_nil_two_le {n : GoStr} (h : goExt n ≠ []) :
    2 ≤ (splitOnChar '.' n).length := by
  by_cases hl : (splitOnChar '.' n).length ≤ 1
  · exact absurd (by simp [goExt, hl]) h
  · omega

theorem goExt_append_dot (t x : GoStr) (hdot : '.' ∉ x) :
    goExt (t ++ '.' :: x) = '.' :: x := by
  have hs : splitOnChar '.' (t ++ '.' :: x) = splitOnChar '.' t ++ [x] := by
    rw [splitOnChar_append_cons, splitOnChar_of_not_mem hdot]
  have hlen : 1 ≤ (splitOnChar '.' t).length :=
    List.length_pos.mpr (splitOnChar_ne_nil '.' t)
  have hcond : ¬((splitOnChar '.' t).length + 1 ≤ 1) := by omega
  simp only [goExt, hs, List.length_append, List.length_singleton]
  rw [if_neg hcond]
  simp [List.getLastD_concat]

theorem goExt_suffix {n : GoStr} (h : goExt n ≠ []) :
    ∃ t, n = t ++ goExt n := by
  have h2 : 2 ≤ (splitOnChar '.' n).length := goExt_ne_nil_two_le h
  have hne : splitOnChar '.' n ≠ [] := splitOnChar_ne_nil '.' n
  have hde : (splitOnChar '.' n).dropLast ≠ [] := by
    intro hc
    have := List.length_dropLast (splitOnChar '.' n)
    rw [hc] at this
    simp at this
    omega
  have hrecon : (splitOnChar '.' n).dropLast ++ [(splitOnChar '.' n).getLast hne] =
      splitOnChar '.' n := List.dropLast_append_getLast hne
  have hjoin := joinChar_splitOnChar '.' n
  rw [← hrecon] at hjoin
  rw [joinChar_append_singleton '.' _ _ hde] at hjoin
  refine ⟨joinChar '.' (splitOnChar '.' n).dropLast, ?_⟩
  have hext : goExt n = '.' :: (splitOnChar '.' n).getLast hne := by
    simp only [goExt]
    rw [if_neg (by omega)]
    rw [List.getLastD_eq_getLast?, List.getLast?_eq_getLast _ hne]
    simp
  rw [hext]
  exact hjoin.symm

/-- Characterization of the Ext-based classification: for a dot-free final
component x, a name has extension ".x" exactly when it ends in ".x". -/
theorem goExt_eq_dot_iff {n x : GoStr} (hdot : '.' ∉ x) :
    goExt n = '.' :: x ↔ ∃ t, n = t ++ '.' :: x := by
  constructor
  · intro h
    have := goExt_suffix (n := n) (by rw [h]; simp)
    rwa [h] at this
  · rintro ⟨t, rfl⟩
    exact goExt_append_dot t x hdot

/-- File and item name constants (stream/stream.go). -/
def FileChecksumSHA256 : GoStr := gs "SHA256SUMS"

def FileImageConfig : GoStr := gs "image.yaml"

def ItemTypeMetadata : GoStr := gs "lxd.tar.xz"

def ItemTypeSquashfs : GoStr := gs "squashfs"

def ItemTypeSquashfsDelta : GoStr := gs "squashfs.vcdiff"

def ItemTypeDiskKVM : GoStr := gs "disk-kvm.img"

def ItemTypeDiskKVMDelta : GoStr := gs "disk-kvm.img.vcdiff"

def ItemTypeRootTarXz : GoStr := gs "root.tar.xz"

def ItemExtMetadata : GoStr := gs ".tar.xz"

def ItemExtSquashfs : GoStr := gs ".squashfs"

def ItemExtSquashfsDelta : GoStr := gs ".vcdiff"

def ItemExtDiskKVM : GoStr := gs ".qcow2"

def ItemExtDiskKVMDelta : GoStr := gs ".qcow2.vcdiff"

/-- List of item extensions that are included in a product version. -/
def allowedItemExtensions : List GoStr :=
  [ItemExtMetadata, ItemExtSquashfs, ItemExtSquashfsDelta, ItemExtDiskKVM, ItemExtDiskKVMDelta]

/-- Item (stream/stream.go): a file within a product version. The empty
string stands for Go's zero string value of an unset field. -/
structure Item where
  Name : GoStr
  Ftype : GoStr
  Path : GoStr
  Size : Nat
  SHA256 : GoStr
  CombinedSHA256DiskKvmImg : GoStr
  CombinedSHA256SquashFs : GoStr
  CombinedSHA256RootXz : GoStr
  DeltaBase : GoStr
deriving DecidableEq

/-- GetItem (stream/stream.go). The os.Stat results are supplied as statName
(the base name of the path) and statSize, and hash stands for the
shared.FileHash oracle over the item path. An out-of-range slice index (a
run-time panic in Go) yields none. -/
def GetItem (itemRelPath statName : GoStr) (statSize : Nat) (calcHash : Bool)
    (hash : GoStr → GoStr) : Option Item :=
  let sha := if calcHash then hash itemRelPath else []
  let base : Item :=
    { Name := statName, Ftype := [], Path := itemRelPath, Size := statSize,
      SHA256 := sha, CombinedSHA256DiskKvmImg := [], CombinedSHA256SquashFs := [],
      CombinedSHA256RootXz := [], DeltaBase := [] }
  if goExt statName = ItemExtSquashfs then
    some { base with Ftype := ItemTypeSquashfs }
  else if goExt statName = ItemExtDiskKVM then
    some { base with Ftype := ItemTypeDiskKVM }
  else if goExt statName = gs ".vcdiff" then
    let parts := splitOnChar '.' statName
    if goHasSuffix statName ItemExtDiskKVMDelta then
      match goIndex parts ((parts.length : Int) - 3) with
      | none => none
      | some db => some { base with Ftype := ItemTypeDiskKVMDelta, DeltaBase := db }
    else
      match goIndex parts ((parts.length : Int) - 2) with
      | none => none
      | some db => some { base with Ftype := ItemTypeSquashfsDelta, DeltaBase := db }
  else
    some { base with Ftype := statName }

theorem goIndex_append_two {α : Type} (P : List α) (a b : α) :
    goIndex (P ++ [a, b]) (((P ++ [a, b]).length : Int) - 2) = some a := by
  have hlen : (P ++ [a, b]).length = P.length + 2 := by simp
  rw [hlen]
  unfold goIndex
  rw [if_neg (by omega)]
  have ht : (((P.length + 2 : Nat) : Int) - 2).toNat = P.length := by omega
  rw [ht, List.get?_append_right (Nat.le_refl _)]
  simp

theorem goIndex_append_three {α : Type} (P : List α) (a b c : α) :
    goIndex (P ++ [a, b, c]) (((P ++ [a, b, c]).length : Int) - 3) = some a := by
  have hlen : (P ++ [a, b, c]).length = P.length + 3 := by simp
  rw [hlen]
  unfold goIndex
  rw [if_neg (by omega)]
  have ht : (((P.length + 3 : Nat) : Int) - 3).toNat = P.length := by omega
  rw [ht, List.get?_append_right (Nat.le_refl _)]
  simp

theorem two_le_split_of_vcdiff_suffix {n : GoStr}
    (h : goHasSuffix n (gs ".vcdiff") = true) : 2 ≤ (splitOnChar '.' n).length := by
  rcases (goHasSuffix_iff _ _).mp h with ⟨t, rfl⟩
  have he : (gs ".vcdiff") = '.' :: gs "vcdiff" := rfl
  rw [he, splitOnChar_append_cons, splitOnChar_of_not_mem (c := '.') (l := gs "vcdiff") (by decide)]
  have h1 := List.length_pos.mpr (splitOnChar_ne_nil '.' t)
  simp only [List.length_append, List.length_cons, List.length_nil]
  omega

theorem three_le_split_of_qcow2_vcdiff_suffix {n : GoStr}
    (h : goHasSuffix n (gs ".qcow2.vcdiff") = true) : 3 ≤ (splitOnChar '.' n).length := by
  rcases (goHasSuffix_iff _ _).mp h with ⟨t, rfl⟩
  have he : (gs ".qcow2.vcdiff") = '.' :: (gs "qcow2" ++ '.' :: gs "vcdiff") := rfl
  rw [he, splitOnChar_append_cons, splitOnChar_append_cons,
    splitOnChar_of_not_mem (c := '.') (l := gs "qcow2") (by decide),
    splitOnChar_of_not_mem (c := '.') (l := gs "vcdiff") (by decide)]
  have h1 := List.length_pos.mpr (splitOnChar_ne_nil '.' t)
  simp only [List.length_append, List.length_cons, List.length_nil]
  omega

theorem goIndex_isSome {α : Type} (l : List α) (i : Int) (h0 : 0 ≤ i)
    (hl : i.toNat < l.length) : (goIndex l i).isSome = true := by
  unfold goIndex
  rw [if_neg (by omega)]
  rw [List.get?_eq_get hl]
  simp

theorem gs_vcdiff_cons : gs ".vcdiff" = '.' :: gs "vcdiff" := rfl

theorem gs_qcow2_vcdiff_cons :
    gs ".qcow2.vcdiff" = '.' :: (gs "qcow2" ++ '.' :: gs "vcdiff") := rfl

theorem vcdiff_name_splits (pre sv : GoStr) (hdot : '.' ∉ sv) :
    splitOnChar '.' (pre ++ '.' :: sv ++ gs ".vcdiff") =
      splitOnChar '.' pre ++ [sv, gs "vcdiff"] := by
  have hassoc : pre ++ '.' :: sv ++ gs ".vcdiff" =
      pre ++ '.' :: (sv ++ '.' :: gs "vcdiff") := by
    rw [gs_vcdiff_cons]; simp
  rw [hassoc, splitOnChar_append_cons, splitOnChar_append_cons,
    splitOnChar_of_not_mem hdot,
    splitOnChar_of_not_mem (c := '.') (l := gs "vcdiff") (by decide)]
  simp

theorem qcow2_vcdiff_name_splits (pre sv : GoStr) (hdot : '.' ∉ sv) :
    splitOnChar '.' (pre ++ '.' :: sv ++ gs ".qcow2.vcdiff") =
      splitOnChar '.' pre ++ [sv, gs "qcow2", gs "vcdiff"] := by
  have hassoc : pre ++ '.' :: sv ++ gs ".qcow2.vcdiff" =
      pre ++ '.' :: (sv ++ '.' :: (gs "qcow2" ++ '.' :: gs "vcdiff")) := by
    rw [gs_qcow2_vcdiff_cons]; simp
  rw [hassoc, splitOnChar_append_cons, splitOnChar_append_cons, splitOnChar_append_cons,
    splitOnChar_of_not_mem hdot,
    splitOnChar_of_not_mem (c := '.') (l := gs "qcow2") (by decide),
    splitOnChar_of_not_mem (c := '.') (l := gs "vcdiff") (by decide)]
  simp

/-- C9. For every file name of the form prefix.sourceVersion.vcdiff (with a
dot-free source version and not ending in .qcow2.vcdiff) GetItem classifies
the item as squashfs.vcdiff, and for every name of the form
prefix.sourceVersion.qcow2.vcdiff as disk-kvm.img.vcdiff; in both cases the
DeltaBase field equals the source version encoded in the name, extracted by
splitting the name on the dot. -/
theorem GetItem_delta_classification :
    (∀ (pre sv relPath : GoStr) (sz : Nat) (ch : Bool) (hash : GoStr → GoStr),
      '.' ∉ sv →
      goHasSuffix (pre ++ '.' :: sv ++ gs ".vcdiff") ItemExtDiskKVMDelta = false →
      ∃ it, GetItem relPath (pre ++ '.' :: sv ++ gs ".vcdiff") sz ch hash = some it ∧
        it.Ftype = ItemTypeSquashfsDelta ∧ it.DeltaBase = sv) ∧
    (∀ (pre sv relPath : GoStr) (sz : Nat) (ch : Bool) (hash : GoStr → GoStr),
      '.' ∉ sv →
      ∃ it, GetItem relPath (pre ++ '.' :: sv ++ gs ".qcow2.vcdiff") sz ch hash = some it ∧
        it.Ftype = ItemTypeDiskKVMDelta ∧ it.DeltaBase = sv) := by
  constructor
  · intro pre sv relPath sz ch hash hdot hsufF
    have hext : goExt (pre ++ '.' :: sv ++ gs ".vcdiff") = gs ".vcdiff" := by
      have h := goExt_append_dot (pre ++ '.' :: sv) (gs "vcdiff") (by decide)
      have heq : (pre ++ '.' :: sv) ++ '.' :: gs "vcdiff" =
          pre ++ '.' :: sv ++ gs ".vcdiff" := by rw [gs_vcdiff_cons]
      rw [heq, ← gs_vcdiff_cons] at h
      exact h
    have hparts := vcdiff_name_splits pre sv hdot
    have main : GetItem relPath (pre ++ '.' :: sv ++ gs ".vcdiff") sz ch hash =
        some { Name := pre ++ '.' :: sv ++ gs ".vcdiff", Ftype := ItemTypeSquashfsDelta,
               Path := relPath, Size := sz, SHA256 := if ch then hash relPath else [],
               CombinedSHA256DiskKvmImg := [], CombinedSHA256SquashFs := [],
               CombinedSHA256RootXz := [], DeltaBase := sv } := by
      simp only [GetItem]
      rw [if_neg (by rw [hext]; decide), if_neg (by rw [hext]; decide), if_pos hext,
        if_neg (by rw [hsufF]; decide), hparts, goIndex_append_two]
    exact ⟨_, main, rfl, rfl⟩
  · intro pre sv relPath sz ch hash hdot
    have hext : goExt (pre ++ '.' :: sv ++ gs ".qcow2.vcdiff") = gs ".vcdiff" := by
      have h := goExt_append_dot (pre ++ '.' :: sv ++ '.' :: gs "qcow2") (gs "vcdiff") (by decide)
      have heq : (pre ++ '.' :: sv ++ '.' :: gs "qcow2") ++ '.' :: gs "vcdiff" =
          pre ++ '.' :: sv ++ gs ".qcow2.vcdiff" := by
        rw [gs_qcow2_vcdiff_cons]; simp
      rw [heq, ← gs_vcdiff_cons] at h
      exact h
    have hsufT : goHasSuffix (pre ++ '.' :: sv ++ gs ".qcow2.vcdiff") ItemExtDiskKVMDelta = true :=
      (goHasSuffix_iff _ _).mpr ⟨pre ++ '.' :: sv, by simp [ItemExtDiskKVMDelta]⟩
    have hparts := qcow2_vcdiff_name_splits pre sv hdot
    have main : GetItem relPath (pre ++ '.' :: sv ++ gs ".qcow2.vcdiff") sz ch hash =
        some { Name := pre ++ '.' :: sv ++ gs ".qcow2.vcdiff", Ftype := ItemTypeDiskKVMDelta,
               Path := relPath, Size := sz, SHA256 := if ch then hash relPath else [],
               CombinedSHA256DiskKvmImg := [], CombinedSHA256SquashFs := [],
               CombinedSHA256RootXz := [], DeltaBase := sv } := by
      simp only [GetItem]
      rw [if_neg (by rw [hext]; decide), if_neg (by rw [hext]; decide), if_pos hext,
        if_pos hsufT, hparts, goIndex_append_three]
    exact ⟨_, main, rfl, rfl⟩

/-- C9 (witness). Concrete delta names: rootfs.2024_01_01.vcdiff is a
squashfs delta with base 2024_01_01 and disk.2024_01_01.qcow2.vcdiff is a
disk-kvm.img delta with base 2024_01_01. -/
theorem GetItem_delta_classification_witness :
    (GetItem (gs "p") (gs "rootfs" ++ '.' :: gs "2024_01_01" ++ gs ".vcdiff") 0 false
        (fun _ => [])).map Item.DeltaBase = some (gs "2024_01_01") ∧
    (GetItem (gs "p") (gs "disk" ++ '.' :: gs "2024_01_01" ++ gs ".qcow2.vcdiff") 0 false
        (fun _ => [])).map Item.Ftype = some ItemTypeDiskKVMDelta := by
  constructor
  · obtain ⟨it, h1, _, h3⟩ := GetItem_delta_classification.1 (gs "rootfs") (gs "2024_01_01")
      (gs "p") 0 false (fun _ => []) (by decide) (by decide)
    rw [h1]
    simp [h3]
  · obtain ⟨it, h1, h2, _⟩ := GetItem_delta_classification.2 (gs "disk") (gs "2024_01_01")
      (gs "p") 0 false (fun _ => []) (by decide)
    rw [h1]
    simp [h2]

theorem GetItem_isSome (relPath n : GoStr) (sz : Nat) (ch : Bool)
    (hash : GoStr → GoStr) : (GetItem relPath n sz ch hash).isSome = true := by
  simp only [GetItem]
  by_cases h1 : goExt n = ItemExtSquashfs
  · rw [if_pos h1]; simp
  · rw [if_neg h1]
    by_cases h2 : goExt n = ItemExtDiskKVM
    · rw [if_pos h2]; simp
    · rw [if_neg h2]
      by_cases h3 : goExt n = gs ".vcdiff"
      · rw [if_pos h3]
        have hvs : goHasSuffix n (gs ".vcdiff") = true := by
          rcases goExt_suffix (n := n) (by rw [h3]; decide) with ⟨t, ht⟩
          rw [h3] at ht
          exact (goHasSuffix_iff _ _).mpr ⟨t, ht⟩
        have h2le : 2 ≤ (splitOnChar '.' n).length := two_le_split_of_vcdiff_suffix hvs
        by_cases h4 : goHasSuffix n ItemExtDiskKVMDelta = true
        · rw [if_pos h4]
          have h3le : 3 ≤ (splitOnChar '.' n).length := three_le_split_of_qcow2_vcdiff_suffix h4
          have hsome := goIndex_isSome (splitOnChar '.' n)
            (((splitOnChar '.' n).length : Int) - 3) (by omega) (by omega)
          cases hg : goIndex (splitOnChar '.' n) (((splitOnChar '.' n).length : Int) - 3) with
          | none => rw [hg] at hsome; simp at hsome
          | some db => simp
        · rw [if_neg h4]
          have hsome := goIndex_isSome (splitOnChar '.' n)
            (((splitOnChar '.' n).length : Int) - 2) (by omega) (by omega)
          cases hg : goIndex (splitOnChar '.' n) (((splitOnChar '.' n).length : Int) - 2) with
          | none => rw [hg] at hsome; simp at hsome
          | some db => simp
      · rw [if_neg h3]; simp

/-- C10. GetItem's delta classification is total: a name ending in .vcdiff
splits on the dot into at least two components and a name ending in
.qcow2.vcdiff into at least three, so the accesses at positions length-2 and
length-3 are in range and GetItem never returns the panic marker on any file
name with an allowed item extension. -/
theorem GetItem_never_panics :
    (∀ n : GoStr, goHasSuffix n (gs ".vcdiff") = true →
      2 ≤ (splitOnChar '.' n).length) ∧
    (∀ n : GoStr, goHasSuffix n (gs ".qcow2.vcdiff") = true →
      3 ≤ (splitOnChar '.' n).length) ∧
    (∀ (relPath n : GoStr) (sz : Nat) (ch : Bool) (hash : GoStr → GoStr),
      sharedHasSuffix n allowedItemExtensions = true →
      (GetItem relPath n sz ch hash).isSome = true) :=
  ⟨fun _ h => two_le_split_of_vcdiff_suffix h,
   fun _ h => three_le_split_of_qcow2_vcdiff_suffix h,
   fun relPath n sz ch hash _ => GetItem_isSome relPath n sz ch hash⟩

/-- C10 (witness). Concrete names with allowed extensions are classified
without a panic. -/
theorem GetItem_never_panics_witness :
    2 ≤ (splitOnChar '.' (gs "a.vcdiff")).length ∧
    3 ≤ (splitOnChar '.' (gs "a.qcow2.vcdiff")).length ∧
    (GetItem (gs "q") (gs "disk.2024.qcow2.vcdiff") 0 false (fun _ => [])).isSome = true :=
  ⟨GetItem_never_panics.1 (gs "a.vcdiff") (by decide),
   GetItem_never_panics.2.1 (gs "a.qcow2.vcdiff") (by decide),
   GetItem_never_panics.2.2 (gs "q") (gs "disk.2024.qcow2.vcdiff") 0 false (fun _ => [])
     (by decide)⟩

theorem alookup_aput {α : Type} (m : List (GoStr × α)) (k : GoStr) (v : α) (n : GoStr) :
    alookup (aput m k v) n = if k = n then some v else alookup m n := by
  induction m with
  | nil => by_cases h : k = n <;> simp [aput, alookup, h]
  | cons e rest ih =>
      obtain ⟨k', v'⟩ := e
      by_cases h1 : k' = k
      · subst h1
        by_cases h2 : k' = n <;> simp [aput, alookup, h2]
      · by_cases h2 : k' = n
        · subst h2
          have : ¬k = k' := fun e => h1 e.symm
          simp [aput, alookup, h1, this]
        · simp [aput, alookup, h1, h2, ih]

theorem alookup_mem {α : Type} {m : List (GoStr × α)} {k : GoStr} {v : α}
    (h : alookup m k = some v) : (k, v) ∈ m := by
  induction m with
  | nil => simp [alookup] at h
  | cons e rest ih =>
      obtain ⟨k', v'⟩ := e
      by_cases h1 : k' = k
      · subst h1
        simp [alookup] at h
        simp [h]
      · simp [alookup, h1] at h
        simp [ih h]

/-- ImageConfig (stream/stream.go): the simplestream section of image.yaml.
A nil Go map is modelled as none. -/
structure ImageConfig where
  ReleaseAliases : Option (List (GoStr × GoStr))
  Requirements : Option (List (GoStr × GoStr))
deriving DecidableEq

/-- Version (stream/stream.go): Checksums is nil (none) unless a SHA256SUMS
file was read, ImageConfig is nil unless image.yaml carried a simplestream
section, and Items is the map of items keyed by file name. -/
structure Version where
  Checksums : Option (List (GoStr × GoStr))
  ImageConfig : Option ImageConfig
  Items : List (GoStr × Item)
deriving DecidableEq

/-- Errors returned by GetVersion (stream/stream.go): ErrVersionIncomplete
and ErrVersionInvalidImageConfig. -/
inductive VersionErr where
  | incomplete
  | invalidImageConfig
deriving DecidableEq

/-- Contents of a version directory as read by GetVersion: the directory
listing (os.ReadDir gives name and isDir), the lines of the SHA256SUMS file
(read when that file is listed), and the parse result of image.yaml (used
when that file is listed): a parse error, or the optional simplestream
section. -/
structure VersionDir where
  files : List (GoStr × Bool)
  checksumLines : List GoStr
  yaml : Except Unit (Option ImageConfig)

/-- Item-collection loop of GetVersion (stream/stream.go): walk the directory
entries, turning files with an allowed item extension into items, reading the
checksum file into the Checksums map, and parsing the image config. A GetItem
panic propagates as none; an image.yaml parse failure aborts with the
invalid-image-config error. -/
def getVersionItemsLoop (p : GoStr) (ch : Bool) (hash : GoStr → GoStr)
    (fsize : GoStr → Nat) (csLines : List GoStr)
    (yaml : Except Unit (Option ImageConfig)) :
    List (GoStr × Bool) → Version → Option (Except VersionErr Version)
  | [], st => some (Except.ok st)
  | (name, isDir) :: rest, st =>
      if isDir then getVersionItemsLoop p ch hash fsize csLines yaml rest st
      else if sharedHasSuffix name allowedItemExtensions then
        match GetItem (goJoin p name) name (fsize (goJoin p name)) ch hash with
        | none => none
        | some it =>
            getVersionItemsLoop p ch hash fsize csLines yaml rest
              { st with Items := aput st.Items name it }
      else if name = FileChecksumSHA256 then
        getVersionItemsLoop p ch hash fsize csLines yaml rest
          { st with Checksums := some (ReadChecksumFile csLines) }
      else if name = FileImageConfig then
        match yaml with
        | Except.error _ => some (Except.error VersionErr.invalidImageConfig)
        | Except.ok none => getVersionItemsLoop p ch hash fsize csLines yaml rest st
        | Except.ok (some cfg) =>
            getVersionItemsLoop p ch hash fsize csLines yaml rest
              { st with ImageConfig := some cfg }
      else getVersionItemsLoop p ch hash fsize csLines yaml rest st

/-- One iteration of the combined-hash loop of GetVersion (stream/stream.go):
for a squashfs, qcow2 or root-tarball item, compute its combined hash on the
metadata item (when hashing is on), and mark the version complete for the
squashfs and qcow2 cases; the accumulator is the updated metadata item and
the isVersionComplete flag. -/
def combineStep (p : GoStr) (ch : Bool) (hash2 : GoStr → GoStr → GoStr)
    (metaPath : GoStr) (acc : Item × Bool) (e : GoStr × Item) : Item × Bool :=
  if e.2.Ftype = ItemTypeSquashfs ∨ e.2.Ftype = ItemTypeDiskKVM ∨
      e.2.Ftype = ItemTypeRootTarXz then
    let itemHash := if ch then hash2 metaPath (goJoin p e.2.Name) else []
    if e.2.Ftype = ItemTypeDiskKVM then
      ({ acc.1 with CombinedSHA256DiskKvmImg := itemHash }, true)
    else if e.2.Ftype = ItemTypeSquashfs then
      ({ acc.1 with CombinedSHA256SquashFs := itemHash }, true)
    else
      ({ acc.1 with CombinedSHA256RootXz := itemHash }, acc.2)
  else acc

/-- Combined-hash and completeness phase of GetVersion (stream/stream.go):
when the metadata item exists, walk the items with combineStep, store the
updated metadata item back, and fail with the version-incomplete error unless
a squashfs or qcow2 rootfs marked the version complete; hash2 stands for the
two-file shared.FileHash oracle. -/
def getVersionFinish (p : GoStr) (ch : Bool) (hash2 : GoStr → GoStr → GoStr)
    (st : Version) : Except VersionErr Version :=
  match alookup st.Items ItemTypeMetadata with
  | none => Except.error VersionErr.incomplete
  | some meta0 =>
      let res := st.Items.foldl (combineStep p ch hash2 (goJoin p meta0.Name)) (meta0, false)
      let st2 : Version := { st with Items := aput st.Items ItemTypeMetadata res.1 }
      if res.2 then Except.ok st2 else Except.error VersionErr.incomplete

/-- GetVersion (stream/stream.go): read a version directory, build the items
map (reading SHA256SUMS and image.yaml along the way), compute the combined
hashes on the metadata item, and fail with the version-incomplete error when
no squashfs or qcow2 rootfs accompanies the metadata item. -/
def GetVersion (versionRelPath : GoStr) (d : VersionDir) (calcHashes : Bool)
    (hash : GoStr → GoStr) (hash2 : GoStr → GoStr → GoStr) (fsize : GoStr → Nat) :
    Option (Except VersionErr Version) :=
  match getVersionItemsLoop versionRelPath calcHashes hash fsize d.checksumLines d.yaml
      d.files { Checksums := none, ImageConfig := none, Items := [] } with
  | none => none
  | some (Except.error e) => some (Except.error e)
  | some (Except.ok st) => some (getVersionFinish versionRelPath calcHashes hash2 st)

theorem mem_aput {α : Type} {m : List (GoStr × α)} {k : GoStr} {v : α} {e : GoStr × α}
    (h : e ∈ aput m k v) : e = (k, v) ∨ e ∈ m := by
  induction m with
  | nil => simp [aput] at h; simp [h]
  | cons f rest ih =>
      obtain ⟨k', v'⟩ := f
      by_cases h1 : k' = k
      · subst h1
        simp only [aput, if_pos rfl] at h
        rcases List.mem_cons.mp h with he | hm
        · exact Or.inl he
        · exact Or.inr (List.mem_cons_of_mem _ hm)
      · simp only [aput, if_neg h1] at h
        rcases List.mem_cons.mp h with he | hm
        · exact Or.inr (by simp [he])
        · rcases ih hm with he2 | hm2
          · exact Or.inl he2
          · exact Or.inr (List.mem_cons_of_mem _ hm2)

theorem squash_ne_kvm : ¬ ItemTypeSquashfs = ItemTypeDiskKVM := by decide

theorem root_ne_kvm : ¬ ItemTypeRootTarXz = ItemTypeDiskKVM := by decide

theorem root_ne_squash : ¬ ItemTypeRootTarXz = ItemTypeSquashfs := by decide

theorem combineStep_flag (p : GoStr) (ch : Bool) (hash2 : GoStr → GoStr → GoStr)
    (metaPath : GoStr) (acc : Item × Bool) (e : GoStr × Item) :
    (combineStep p ch hash2 metaPath acc e).2 =
      (acc.2 || decide (e.2.Ftype = ItemTypeSquashfs) ||
        decide (e.2.Ftype = ItemTypeDiskKVM)) := by
  by_cases h1 : e.2.Ftype = ItemTypeDiskKVM
  · have h2 : ¬ e.2.Ftype = ItemTypeSquashfs := by rw [h1]; decide
    simp [combineStep, h1, h2]
  · by_cases h2 : e.2.Ftype = ItemTypeSquashfs
    · simp [combineStep, h1, h2, squash_ne_kvm]
    · by_cases h3 : e.2.Ftype = ItemTypeRootTarXz
      · simp [combineStep, h1, h2, h3, root_ne_kvm, root_ne_squash]
      · simp [combineStep, h1, h2, h3]

theorem combineFold_flag (p : GoStr) (ch : Bool) (hash2 : GoStr → GoStr → GoStr)
    (metaPath : GoStr) (items : List (GoStr × Item)) (acc : Item × Bool) :
    (items.foldl (combineStep p ch hash2 metaPath) acc).2 =
      (acc.2 || items.any (fun e => decide (e.2.Ftype = ItemTypeSquashfs) ||
        decide (e.2.Ftype = ItemTypeDiskKVM))) := by
  induction items generalizing acc with
  | nil => simp
  | cons e rest ih =>
      rw [List.foldl_cons, ih, List.any_cons, combineStep_flag]
      simp [Bool.or_assoc]

theorem combineStep_rootXz_preserve (p : GoStr) (ch : Bool)
    (hash2 : GoStr → GoStr → GoStr) (metaPath : GoStr) (acc : Item × Bool)
    (e : GoStr × Item) (h : ¬ e.2.Ftype = ItemTypeRootTarXz) :
    (combineStep p ch hash2 metaPath acc e).1.CombinedSHA256RootXz =
      acc.1.CombinedSHA256RootXz := by
  by_cases h1 : e.2.Ftype = ItemTypeDiskKVM
  · simp [combineStep, h1]
  · by_cases h2 : e.2.Ftype = ItemTypeSquashfs
    · simp [combineStep, h1, h2, squash_ne_kvm]
    · simp [combineStep, h1, h2, h]

theorem combineFold_rootXz_preserve (p : GoStr) (ch : Bool)
    (hash2 : GoStr → GoStr → GoStr) (metaPath : GoStr) (items : List (GoStr × Item))
    (acc : Item × Bool) (h : ∀ e ∈ items, ¬ e.2.Ftype = ItemTypeRootTarXz) :
    (items.foldl (combineStep p ch hash2 metaPath) acc).1.CombinedSHA256RootXz =
      acc.1.CombinedSHA256RootXz := by
  induction items generalizing acc with
  | nil => simp
  | cons e rest ih =>
      rw [List.foldl_cons, ih _ (fun x hx => h x (List.mem_cons_of_mem _ hx))]
      exact combineStep_rootXz_preserve p ch hash2 metaPath acc e
        (h e (List.mem_cons_self _ _))

theorem combineFold_rootXz_value (p : GoStr) (ch : Bool)
    (hash2 : GoStr → GoStr → GoStr) (metaPath : GoStr) (items : List (GoStr × Item))
    (acc : Item × Bool)
    (hnames : ∀ e ∈ items, e.2.Ftype = ItemTypeRootTarXz → e.2.Name = ItemTypeRootTarXz)
    (hex : ∃ e, e ∈ items ∧ e.2.Ftype = ItemTypeRootTarXz) :
    (items.foldl (combineStep p ch hash2 metaPath) acc).1.CombinedSHA256RootXz =
      (if ch then hash2 metaPath (goJoin p ItemTypeRootTarXz) else []) := by
  induction items generalizing acc with
  | nil => obtain ⟨e, he, _⟩ := hex; simp at he
  | cons e rest ih =>
      rw [List.foldl_cons]
      by_cases hr : ∃ x, x ∈ rest ∧ x.2.Ftype = ItemTypeRootTarXz
      · exact ih _ (fun x hx => hnames x (List.mem_cons_of_mem _ hx)) hr
      · obtain ⟨x, hx, hxr⟩ := hex
        rcases List.mem_cons.mp hx with rfl | hxm
        · have hname := hnames x (List.mem_cons_self _ _) hxr
          have h1 : ¬ x.2.Ftype = ItemTypeDiskKVM := by rw [hxr]; decide
          have h2 : ¬ x.2.Ftype = ItemTypeSquashfs := by rw [hxr]; decide
          rw [combineFold_rootXz_preserve p ch hash2 metaPath rest _
            (fun y hy hc => hr ⟨y, hy, hc⟩)]
          simp [combineStep, hxr, h1, h2, hname, root_ne_kvm, root_ne_squash]
        · exact absurd ⟨x, hxm, hxr⟩ hr

theorem loop_cons_dir (p : GoStr) (ch : Bool) (hash : GoStr → GoStr)
    (fsize : GoStr → Nat) (csLines : List GoStr)
    (yaml : Except Unit (Option ImageConfig)) (name : GoStr)
    (rest : List (GoStr × Bool)) (st : Version) :
    getVersionItemsLoop p ch hash fsize csLines yaml ((name, true) :: rest) st =
      getVersionItemsLoop p ch hash fsize csLines yaml rest st := rfl

theorem loop_cons_item (p : GoStr) (ch : Bool) (hash : GoStr → GoStr)
    (fsize : GoStr → Nat) (csLines : List GoStr)
    (yaml : Except Unit (Option ImageConfig)) (name : GoStr)
    (rest : List (GoStr × Bool)) (st : Version)
    (hsuf : sharedHasSuffix name allowedItemExtensions = true) :
    getVersionItemsLoop p ch hash fsize csLines yaml ((name, false) :: rest) st =
      match GetItem (goJoin p name) name (fsize (goJoin p name)) ch hash with
      | none => none
      | some it => getVersionItemsLoop p ch hash fsize csLines yaml rest
          { st with Items := aput st.Items name it } := by
  simp only [getVersionItemsLoop]
  rw [if_neg (by simp), if_pos hsuf]

theorem loop_cons_checksum (p : GoStr) (ch : Bool) (hash : GoStr → GoStr)
    (fsize : GoStr → Nat) (csLines : List GoStr)
    (yaml : Except Unit (Option ImageConfig)) (name : GoStr)
    (rest : List (GoStr × Bool)) (st : Version)
    (hsufF : ¬ sharedHasSuffix name allowedItemExtensions = true)
    (hname : name = FileChecksumSHA256) :
    getVersionItemsLoop p ch hash fsize csLines yaml ((name, false) :: rest) st =
      getVersionItemsLoop p ch hash fsize csLines yaml rest
        { st with Checksums := some (ReadChecksumFile csLines) } := by
  simp only [getVersionItemsLoop]
  rw [if_neg (by simp), if_neg hsufF, if_pos hname]

theorem loop_cons_yaml (p : GoStr) (ch : Bool) (hash : GoStr → GoStr)
    (fsize : GoStr → Nat) (csLines : List GoStr)
    (yaml : Except Unit (Option ImageConfig)) (name : GoStr)
    (rest : List (GoStr × Bool)) (st : Version)
    (hsufF : ¬ sharedHasSuffix name allowedItemExtensions = true)
    (hnameF : ¬ name = FileChecksumSHA256) (hname : name = FileImageConfig) :
    getVersionItemsLoop p ch hash fsize csLines yaml ((name, false) :: rest) st =
      match yaml with
      | Except.error _ => some (Except.error VersionErr.invalidImageConfig)
      | Except.ok none => getVersionItemsLoop p ch hash fsize csLines yaml rest st
      | Except.ok (some cfg) => getVersionItemsLoop p ch hash fsize csLines yaml rest
          { st with ImageConfig := some cfg } := by
  simp only [getVersionItemsLoop]
  rw [if_neg (by simp), if_neg hsufF, if_neg hnameF, if_pos hname]

theorem loop_cons_other (p : GoStr) (ch : Bool) (hash : GoStr → GoStr)
    (fsize : GoStr → Nat) (csLines : List GoStr)
    (yaml : Except Unit (Option ImageConfig)) (name : GoStr)
    (rest : List (GoStr × Bool)) (st : Version)
    (hsufF : ¬ sharedHasSuffix name allowedItemExtensions = true)
    (hnameF : ¬ name = FileChecksumSHA256) (hnameF2 : ¬ name = FileImageConfig) :
    getVersionItemsLoop p ch hash fsize csLines yaml ((name, false) :: rest) st =
      getVersionItemsLoop p ch hash fsize csLines yaml rest st := by
  simp only [getVersionItemsLoop]
  rw [if_neg (by simp), if_neg hsufF, if_neg hnameF, if_neg hnameF2]

theorem getVersionItemsLoop_ok (p : GoStr) (ch : Bool) (hash : GoStr → GoStr)
    (fsize : GoStr → Nat) (csLines : List GoStr)
    (yaml : Except Unit (Option ImageConfig)) (files : List (GoStr × Bool))
    (st : Version)
    (hy : yaml = Except.error () → ((FileImageConfig, false) : GoStr × Bool) ∉ files) :
    ∃ st2, getVersionItemsLoop p ch hash fsize csLines yaml files st = some (Except.ok st2) ∧
      (∀ n : GoStr, alookup st2.Items n =
        (if (n, false) ∈ files ∧ sharedHasSuffix n allowedItemExtensions = true
         then GetItem (goJoin p n) n (fsize (goJoin p n)) ch hash
         else alookup st.Items n)) ∧
      (∀ e ∈ st2.Items, e ∈ st.Items ∨
        ((e.1, false) ∈ files ∧ sharedHasSuffix e.1 allowedItemExtensions = true ∧
          GetItem (goJoin p e.1) e.1 (fsize (goJoin p e.1)) ch hash = some e.2)) := by
  induction files generalizing st with
  | nil => exact ⟨st, rfl, fun n => by simp, fun e he => Or.inl he⟩
  | cons f rest ih =>
      obtain ⟨name, isDir⟩ := f
      have hy' : yaml = Except.error () →
          ((FileImageConfig, false) : GoStr × Bool) ∉ rest :=
        fun h hm => hy h (List.mem_cons_of_mem _ hm)
      cases isDir with
      | true =>
          obtain ⟨st2, heq, hchar, hmem⟩ := ih st hy'
          refine ⟨st2, ?_, ?_, ?_⟩
          · rw [loop_cons_dir]; exact heq
          · intro n
            rw [hchar n]
            exact if_congr (by simp) rfl rfl
          · intro e he
            rcases hmem e he with h | ⟨hm, hs, hg⟩
            · exact Or.inl h
            · exact Or.inr ⟨List.mem_cons_of_mem _ hm, hs, hg⟩
      | false =>
          by_cases hsuf : sharedHasSuffix name allowedItemExtensions = true
          · cases hGI : GetItem (goJoin p name) name (fsize (goJoin p name)) ch hash with
            | none =>
                have hwit := GetItem_isSome (goJoin p name) name (fsize (goJoin p name)) ch hash
                rw [hGI] at hwit
                simp at hwit
            | some it =>
                obtain ⟨st2, heq, hchar, hmem⟩ :=
                  ih { st with Items := aput st.Items name it } hy'
                refine ⟨st2, ?_, ?_, ?_⟩
                · rw [loop_cons_item p ch hash fsize csLines yaml name rest st hsuf, hGI]
                  exact heq
                · intro n
                  rw [hchar n]
                  by_cases hn : n = name
                  · subst hn
                    have hcons : (n, false) ∈ (n, false) :: rest ∧
                        sharedHasSuffix n allowedItemExtensions = true :=
                      ⟨List.mem_cons_self _ _, hsuf⟩
                    rw [if_pos hcons]
                    by_cases hr : (n, false) ∈ rest ∧
                        sharedHasSuffix n allowedItemExtensions = true
                    · rw [if_pos hr]
                    · rw [if_neg hr]
                      show alookup (aput st.Items n it) n = _
                      rw [alookup_aput, if_pos rfl]
                      exact hGI.symm
                  · have hiff : ((n, false) ∈ (name, false) :: rest ∧
                        sharedHasSuffix n allowedItemExtensions = true) ↔
                        ((n, false) ∈ rest ∧
                          sharedHasSuffix n allowedItemExtensions = true) := by
                      simp [List.mem_cons, hn]
                    by_cases hr : (n, false) ∈ rest ∧
                        sharedHasSuffix n allowedItemExtensions = true
                    · rw [if_pos hr, if_pos (hiff.mpr hr)]
                    · rw [if_neg hr, if_neg (fun hc => hr (hiff.mp hc))]
                      show alookup (aput st.Items name it) n = alookup st.Items n
                      rw [alookup_aput, if_neg (fun h => hn h.symm)]
                · intro e he
                  rcases hmem e he with h | ⟨hm, hs, hg⟩
                  · rcases mem_aput h with he2 | hm2
                    · subst he2
                      exact Or.inr ⟨List.mem_cons_self _ _, hsuf, hGI⟩
                    · exact Or.inl hm2
                  · exact Or.inr ⟨List.mem_cons_of_mem _ hm, hs, hg⟩
          · have hiff : ∀ n : GoStr, ((n, false) ∈ (name, false) :: rest ∧
                sharedHasSuffix n allowedItemExtensions = true) ↔
                ((n, false) ∈ rest ∧ sharedHasSuffix n allowedItemExtensions = true) := by
              intro n
              constructor
              · rintro ⟨hm, hs⟩
                rcases List.mem_cons.mp hm with he | hr2
                · have hne : n = name := congrArg Prod.fst he
                  rw [hne] at hs
                  exact absurd hs hsuf
                · exact ⟨hr2, hs⟩
              · rintro ⟨hm, hs⟩
                exact ⟨List.mem_cons_of_mem _ hm, hs⟩
            by_cases hcs : name = FileChecksumSHA256
            · obtain ⟨st2, heq, hchar, hmem⟩ :=
                ih { st with Checksums := some (ReadChecksumFile csLines) } hy'
              refine ⟨st2, ?_, ?_, ?_⟩
              · rw [loop_cons_checksum p ch hash fsize csLines yaml name rest st hsuf hcs]
                exact heq
              · intro n
                rw [hchar n]
                exact if_congr (hiff n).symm rfl rfl
              · intro e he
                rcases hmem e he with h | ⟨hm, hs, hg⟩
                · exact Or.inl h
                · exact Or.inr ⟨List.mem_cons_of_mem _ hm, hs, hg⟩
            · by_cases hic : name = FileImageConfig
              · cases yaml with
                | error u =>
                    exfalso
                    cases u
                    refine hy rfl ?_
                    rw [← hic]
                    exact List.mem_cons_self _ _
                | ok cfg? =>
                    cases cfg? with
                    | none =>
                        obtain ⟨st2, heq, hchar, hmem⟩ := ih st hy'
                        refine ⟨st2, ?_, ?_, ?_⟩
                        · rw [loop_cons_yaml p ch hash fsize csLines (Except.ok none)
                            name rest st hsuf hcs hic]
                          exact heq
                        · intro n
                          rw [hchar n]
                          exact if_congr (hiff n).symm rfl rfl
                        · intro e he
                          rcases hmem e he with h | ⟨hm, hs, hg⟩
                          · exact Or.inl h
                          · exact Or.inr ⟨List.mem_cons_of_mem _ hm, hs, hg⟩
                    | some cfg =>
                        obtain ⟨st2, heq, hchar, hmem⟩ :=
                          ih { st with ImageConfig := some cfg } hy'
                        refine ⟨st2, ?_, ?_, ?_⟩
                        · rw [loop_cons_yaml p ch hash fsize csLines (Except.ok (some cfg))
                            name rest st hsuf hcs hic]
                          exact heq
                        · intro n
                          rw [hchar n]
                          exact if_congr (hiff n).symm rfl rfl
                        · intro e he
                          rcases hmem e he with h | ⟨hm, hs, hg⟩
                          · exact Or.inl h
                          · exact Or.inr ⟨List.mem_cons_of_mem _ hm, hs, hg⟩
              · obtain ⟨st2, heq, hchar, hmem⟩ := ih st hy'
                refine ⟨st2, ?_, ?_, ?_⟩
                · rw [loop_cons_other p ch hash fsize csLines yaml name rest st hsuf hcs hic]
                  exact heq
                · intro n
                  rw [hchar n]
                  exact if_congr (hiff n).symm rfl rfl
                · intro e he
                  rcases hmem e he with h | ⟨hm, hs, hg⟩
                  · exact Or.inl h
                  · exact Or.inr ⟨List.mem_cons_of_mem _ hm, hs, hg⟩

theorem GetItem_squash_ftype (relPath n : GoStr) (sz : Nat) (ch : Bool)
    (hash : GoStr → GoStr) (it : Item) (h1 : goExt n = ItemExtSquashfs)
    (h : GetItem relPath n sz ch hash = some it) : it.Ftype = ItemTypeSquashfs := by
  simp only [GetItem] at h
  rw [if_pos h1] at h
  simp only [Option.some.injEq] at h
  rw [← h]

theorem GetItem_kvm_ftype (relPath n : GoStr) (sz : Nat) (ch : Bool)
    (hash : GoStr → GoStr) (it : Item) (h1 : ¬ goExt n = ItemExtSquashfs)
    (h2 : goExt n = ItemExtDiskKVM)
    (h : GetItem relPath n sz ch hash = some it) : it.Ftype = ItemTypeDiskKVM := by
  simp only [GetItem] at h
  rw [if_neg h1, if_pos h2] at h
  simp only [Option.some.injEq] at h
  rw [← h]

theorem GetItem_vcdiff_ftype (relPath n : GoStr) (sz : Nat) (ch : Bool)
    (hash : GoStr → GoStr) (it : Item) (h3 : goExt n = gs ".vcdiff")
    (h : GetItem relPath n sz ch hash = some it) :
    it.Ftype = ItemTypeDiskKVMDelta ∨ it.Ftype = ItemTypeSquashfsDelta := by
  simp only [GetItem] at h
  rw [if_neg (by rw [h3]; decide), if_neg (by rw [h3]; decide), if_pos h3] at h
  by_cases h4 : goHasSuffix n ItemExtDiskKVMDelta = true
  · rw [if_pos h4] at h
    cases hg : goIndex (splitOnChar '.' n) (((splitOnChar '.' n).length : Int) - 3) with
    | none => rw [hg] at h; simp at h
    | some db =>
        rw [hg] at h
        simp only [Option.some.injEq] at h
        left
        rw [← h]
  · rw [if_neg h4] at h
    cases hg : goIndex (splitOnChar '.' n) (((splitOnChar '.' n).length : Int) - 2) with
    | none => rw [hg] at h; simp at h
    | some db =>
        rw [hg] at h
        simp only [Option.some.injEq] at h
        right
        rw [← h]

theorem GetItem_default_ftype (relPath n : GoStr) (sz : Nat) (ch : Bool)
    (hash : GoStr → GoStr) (it : Item)
    (h1 : ¬ goExt n = ItemExtSquashfs) (h2 : ¬ goExt n = ItemExtDiskKVM)
    (h3 : ¬ goExt n = gs ".vcdiff")
    (h : GetItem relPath n sz ch hash = some it) : it.Ftype = n := by
  simp only [GetItem] at h
  rw [if_neg h1, if_neg h2, if_neg h3] at h
  simp only [Option.some.injEq] at h
  rw [← h]

theorem GetItem_name (relPath n : GoStr) (sz : Nat) (ch : Bool)
    (hash : GoStr → GoStr) (it : Item)
    (h : GetItem relPath n sz ch hash = some it) : it.Name = n := by
  simp only [GetItem] at h
  by_cases h1 : goExt n = ItemExtSquashfs
  · rw [if_pos h1] at h
    simp only [Option.some.injEq] at h
    rw [← h]
  · rw [if_neg h1] at h
    by_cases h2 : goExt n = ItemExtDiskKVM
    · rw [if_pos h2] at h
      simp only [Option.some.injEq] at h
      rw [← h]
    · rw [if_neg h2] at h
      by_cases h3 : goExt n = gs ".vcdiff"
      · rw [if_pos h3] at h
        by_cases h4 : goHasSuffix n ItemExtDiskKVMDelta = true
        · rw [if_pos h4] at h
          cases hg : goIndex (splitOnChar '.' n) (((splitOnChar '.' n).length : Int) - 3) with
          | none => rw [hg] at h; simp at h
          | some db =>
              rw [hg] at h
              simp only [Option.some.injEq] at h
              rw [← h]
        · rw [if_neg h4] at h
          cases hg : goIndex (splitOnChar '.' n) (((splitOnChar '.' n).length : Int) - 2) with
          | none => rw [hg] at h; simp at h
          | some db =>
              rw [hg] at h
              simp only [Option.some.injEq] at h
              rw [← h]
      · rw [if_neg h3] at h
        simp only [Option.some.injEq] at h
        rw [← h]

theorem GetItem_of_squashfs_suffix (relPath n : GoStr) (sz : Nat) (ch : Bool)
    (hash : GoStr → GoStr) (h : goHasSuffix n ItemExtSquashfs = true) :
    ∃ it, GetItem relPath n sz ch hash = some it ∧ it.Ftype = ItemTypeSquashfs := by
  have hext : goExt n = ItemExtSquashfs := by
    rcases (goHasSuffix_iff _ _).mp h with ⟨t, ht⟩
    have e1 : ItemExtSquashfs = '.' :: gs "squashfs" := rfl
    rw [ht, e1]
    exact goExt_append_dot t (gs "squashfs") (by decide)
  have main : GetItem relPath n sz ch hash =
      some { Name := n, Ftype := ItemTypeSquashfs, Path := relPath, Size := sz,
             SHA256 := if ch then hash relPath else [], CombinedSHA256DiskKvmImg := [],
             CombinedSHA256SquashFs := [], CombinedSHA256RootXz := [], DeltaBase := [] } := by
    simp only [GetItem]
    rw [if_pos hext]
  exact ⟨_, main, rfl⟩

theorem GetItem_of_qcow2_suffix (relPath n : GoStr) (sz : Nat) (ch : Bool)
    (hash : GoStr → GoStr) (h : goHasSuffix n ItemExtDiskKVM = true) :
    ∃ it, GetItem relPath n sz ch hash = some it ∧ it.Ftype = ItemTypeDiskKVM := by
  have hext : goExt n = ItemExtDiskKVM := by
    rcases (goHasSuffix_iff _ _).mp h with ⟨t, ht⟩
    have e2 : ItemExtDiskKVM = '.' :: gs "qcow2" := rfl
    rw [ht, e2]
    exact goExt_append_dot t (gs "qcow2") (by decide)
  have main : GetItem relPath n sz ch hash =
      some { Name := n, Ftype := ItemTypeDiskKVM, Path := relPath, Size := sz,
             SHA256 := if ch then hash relPath else [], CombinedSHA256DiskKvmImg := [],
             CombinedSHA256SquashFs := [], CombinedSHA256RootXz := [], DeltaBase := [] } := by
    simp only [GetItem]
    rw [if_neg (by rw [hext]; decide), if_pos hext]
  exact ⟨_, main, rfl⟩

theorem GetItem_rootfs_suffix (relPath n : GoStr) (sz : Nat) (ch : Bool)
    (hash : GoStr → GoStr) (it : Item)
    (hallow : sharedHasSuffix n allowedItemExtensions = true)
    (h : GetItem relPath n sz ch hash = some it)
    (hf : it.Ftype = ItemTypeSquashfs ∨ it.Ftype = ItemTypeDiskKVM) :
    goHasSuffix n ItemExtSquashfs = true ∨ goHasSuffix n ItemExtDiskKVM = true := by
  by_cases h1 : goExt n = ItemExtSquashfs
  · left
    have e1 : ItemExtSquashfs = '.' :: gs "squashfs" := rfl
    rw [e1] at h1
    rcases (goExt_eq_dot_iff (by decide)).mp h1 with ⟨t, ht⟩
    rw [ht]
    exact (goHasSuffix_iff _ _).mpr ⟨t, by rw [e1]⟩
  · by_cases h2 : goExt n = ItemExtDiskKVM
    · right
      have e2 : ItemExtDiskKVM = '.' :: gs "qcow2" := rfl
      rw [e2] at h2
      rcases (goExt_eq_dot_iff (by decide)).mp h2 with ⟨t, ht⟩
      rw [ht]
      exact (goHasSuffix_iff _ _).mpr ⟨t, by rw [e2]⟩
    · exfalso
      by_cases h3 : goExt n = gs ".vcdiff"
      · rcases GetItem_vcdiff_ftype relPath n sz ch hash it h3 h with hd | hd <;>
          rcases hf with hf | hf <;> (rw [hd] at hf; exact absurd hf (by decide))
      · have hd := GetItem_default_ftype relPath n sz ch hash it h1 h2 h3 h
        rw [hd] at hf
        rcases hf with hf | hf <;> (rw [hf] at hallow; exact absurd hallow (by decide))

theorem GetItem_root_name (relPath n : GoStr) (sz : Nat) (ch : Bool)
    (hash : GoStr → GoStr) (it : Item)
    (h : GetItem relPath n sz ch hash = some it)
    (hf : it.Ftype = ItemTypeRootTarXz) : it.Name = ItemTypeRootTarXz := by
  have hn := GetItem_name relPath n sz ch hash it h
  by_cases h1 : goExt n = ItemExtSquashfs
  · have hd := GetItem_squash_ftype relPath n sz ch hash it h1 h
    rw [hd] at hf
    exact absurd hf (by decide)
  · by_cases h2 : goExt n = ItemExtDiskKVM
    · have hd := GetItem_kvm_ftype relPath n sz ch hash it h1 h2 h
      rw [hd] at hf
      exact absurd hf (by decide)
    · by_cases h3 : goExt n = gs ".vcdiff"
      · rcases GetItem_vcdiff_ftype relPath n sz ch hash it h3 h with hd | hd <;>
          (rw [hd] at hf; exact absurd hf (by decide))
      · have hd := GetItem_default_ftype relPath n sz ch hash it h1 h2 h3 h
        rw [hn, ← hd]
        exact hf

theorem allowed_of_rootfs_suffix {n : GoStr}
    (h : goHasSuffix n ItemExtSquashfs = true ∨ goHasSuffix n ItemExtDiskKVM = true) :
    sharedHasSuffix n allowedItemExtensions = true := by
  unfold sharedHasSuffix
  rw [List.any_eq_true]
  rcases h with h | h
  · exact ⟨ItemExtSquashfs, by simp [allowedItemExtensions], h⟩
  · exact ⟨ItemExtDiskKVM, by simp [allowedItemExtensions], h⟩

/-- C5 (amended). Provided the version directory's image.yaml (when present)
parses successfully, GetVersion returns a Version exactly when the directory
contains a file named lxd.tar.xz and at least one file of item type squashfs
or disk-kvm.img (name ending .squashfs or .qcow2); otherwise it fails with
the version-incomplete error. A root.tar.xz file never establishes
completeness (its name carries neither rootfs suffix), but when hashes are
computed its combined-hash field on the metadata item is still populated.
An image.yaml parse failure instead yields the invalid-image-config error,
which the original claim did not account for. -/
theorem GetVersion_complete_iff (p : GoStr) (d : VersionDir) (ch : Bool)
    (hash : GoStr → GoStr) (hash2 : GoStr → GoStr → GoStr) (fsize : GoStr → Nat)
    (hy : d.yaml = Except.error () → ((FileImageConfig, false) : GoStr × Bool) ∉ d.files) :
    ((∃ v, GetVersion p d ch hash hash2 fsize = some (Except.ok v)) ↔
      (((ItemTypeMetadata, false) : GoStr × Bool) ∈ d.files ∧
        ∃ n, ((n, false) : GoStr × Bool) ∈ d.files ∧
          (goHasSuffix n ItemExtSquashfs = true ∨ goHasSuffix n ItemExtDiskKVM = true))) ∧
    (¬(((ItemTypeMetadata, false) : GoStr × Bool) ∈ d.files ∧
        ∃ n, ((n, false) : GoStr × Bool) ∈ d.files ∧
          (goHasSuffix n ItemExtSquashfs = true ∨ goHasSuffix n ItemExtDiskKVM = true)) →
      GetVersion p d ch hash hash2 fsize = some (Except.error VersionErr.incomplete)) ∧
    (goHasSuffix ItemTypeRootTarXz ItemExtSquashfs = false ∧
      goHasSuffix ItemTypeRootTarXz ItemExtDiskKVM = false) ∧
    (∀ v, GetVersion p d ch hash hash2 fsize = some (Except.ok v) →
      ((ItemTypeRootTarXz, false) : GoStr × Bool) ∈ d.files → ch = true →
      (alookup v.Items ItemTypeMetadata).map Item.CombinedSHA256RootXz =
        some (hash2 (goJoin p ItemTypeMetadata) (goJoin p ItemTypeRootTarXz))) := by
  obtain ⟨st2, heq, hchar, hmem⟩ := getVersionItemsLoop_ok p ch hash fsize d.checksumLines
    d.yaml d.files { Checksums := none, ImageConfig := none, Items := [] } hy
  have hGV : GetVersion p d ch hash hash2 fsize =
      some (getVersionFinish p ch hash2 st2) := by
    unfold GetVersion
    rw [heq]
  have hmetaSuf : sharedHasSuffix ItemTypeMetadata allowedItemExtensions = true := by decide
  have hrootSuf : sharedHasSuffix ItemTypeRootTarXz allowedItemExtensions = true := by decide
  have hmeta_iff : (alookup st2.Items ItemTypeMetadata).isSome = true ↔
      ((ItemTypeMetadata, false) : GoStr × Bool) ∈ d.files := by
    rw [hchar ItemTypeMetadata]
    constructor
    · intro hs
      by_cases hc : ((ItemTypeMetadata, false) : GoStr × Bool) ∈ d.files ∧
          sharedHasSuffix ItemTypeMetadata allowedItemExtensions = true
      · exact hc.1
      · rw [if_neg hc] at hs
        simp [alookup] at hs
    · intro hm
      rw [if_pos ⟨hm, hmetaSuf⟩]
      exact GetItem_isSome _ _ _ _ _
  have hflag_iff : (st2.Items.any (fun e => decide (e.2.Ftype = ItemTypeSquashfs) ||
      decide (e.2.Ftype = ItemTypeDiskKVM))) = true ↔
      (∃ n, ((n, false) : GoStr × Bool) ∈ d.files ∧
        (goHasSuffix n ItemExtSquashfs = true ∨ goHasSuffix n ItemExtDiskKVM = true)) := by
    rw [List.any_eq_true]
    constructor
    · rintro ⟨e, he, hp⟩
      have hp2 : e.2.Ftype = ItemTypeSquashfs ∨ e.2.Ftype = ItemTypeDiskKVM := by
        simpa using hp
      rcases hmem e he with h0 | ⟨hmf, hall, hgi⟩
      · simp at h0
      · exact ⟨e.1, hmf,
          GetItem_rootfs_suffix (goJoin p e.1) e.1 (fsize (goJoin p e.1)) ch hash e.2
            hall hgi hp2⟩
    · rintro ⟨n, hnf, hsfx⟩
      have hall : sharedHasSuffix n allowedItemExtensions = true :=
        allowed_of_rootfs_suffix hsfx
      have hlook : alookup st2.Items n =
          GetItem (goJoin p n) n (fsize (goJoin p n)) ch hash := by
        rw [hchar n, if_pos ⟨hnf, hall⟩]
      rcases hsfx with hs | hs
      · obtain ⟨it, hgi, hft⟩ :=
          GetItem_of_squashfs_suffix (goJoin p n) n (fsize (goJoin p n)) ch hash hs
        refine ⟨(n, it), alookup_mem (by rw [hlook, hgi]), ?_⟩
        simp [hft]
      · obtain ⟨it, hgi, hft⟩ :=
          GetItem_of_qcow2_suffix (goJoin p n) n (fsize (goJoin p n)) ch hash hs
        refine ⟨(n, it), alookup_mem (by rw [hlook, hgi]), ?_⟩
        simp [hft]
  refine ⟨?_, ?_, by decide, ?_⟩
  · constructor
    · rintro ⟨v, hv⟩
      rw [hGV] at hv
      simp only [Option.some.injEq] at hv
      cases hm : alookup st2.Items ItemTypeMetadata with
      | none =>
          simp only [getVersionFinish, hm] at hv
          exact Except.noConfusion hv
      | some mi =>
          simp only [getVersionFinish, hm] at hv
          have hms0 : (alookup st2.Items ItemTypeMetadata).isSome = true := by
            rw [hm]
            rfl
          refine ⟨hmeta_iff.mp hms0, ?_⟩
          by_cases hfl : (st2.Items.foldl (combineStep p ch hash2 (goJoin p mi.Name))
              (mi, false)).2 = true
          · have hany := combineFold_flag p ch hash2 (goJoin p mi.Name) st2.Items (mi, false)
            rw [hfl, Bool.false_or] at hany
            exact hflag_iff.mp hany.symm
          · rw [if_neg hfl] at hv
            exact Except.noConfusion hv
    · rintro ⟨hmf, n, hnf, hsfx⟩
      have hms : (alookup st2.Items ItemTypeMetadata).isSome = true := hmeta_iff.mpr hmf
      obtain ⟨mi, hm⟩ := Option.isSome_iff_exists.mp hms
      have hanyT := hflag_iff.mpr ⟨n, hnf, hsfx⟩
      have hflagT : (st2.Items.foldl (combineStep p ch hash2 (goJoin p mi.Name))
          (mi, false)).2 = true := by
        rw [combineFold_flag, Bool.false_or]
        exact hanyT
      have hres : GetVersion p d ch hash hash2 fsize = some (Except.ok { st2 with Items := aput st2.Items ItemTypeMetadata (st2.Items.foldl (combineStep p ch hash2 (goJoin p mi.Name)) (mi, false)).1 }) := by
        rw [hGV]
        simp only [getVersionFinish, hm]
        rw [if_pos hflagT]
      exact ⟨_, hres⟩
  · intro hnc
    rw [hGV]
    cases hm : alookup st2.Items ItemTypeMetadata with
    | none => simp only [getVersionFinish, hm]
    | some mi =>
        have hms0 : (alookup st2.Items ItemTypeMetadata).isSome = true := by
          rw [hm]
          rfl
        have hmf : ((ItemTypeMetadata, false) : GoStr × Bool) ∈ d.files :=
          hmeta_iff.mp hms0
        have hnoroot : ¬∃ n, ((n, false) : GoStr × Bool) ∈ d.files ∧
            (goHasSuffix n ItemExtSquashfs = true ∨ goHasSuffix n ItemExtDiskKVM = true) :=
          fun hex => hnc ⟨hmf, hex⟩
        have hanyF : ¬ (st2.Items.any (fun e => decide (e.2.Ftype = ItemTypeSquashfs) ||
            decide (e.2.Ftype = ItemTypeDiskKVM))) = true :=
          fun hc => hnoroot (hflag_iff.mp hc)
        simp only [getVersionFinish, hm]
        rw [if_neg (by rw [combineFold_flag, Bool.false_or]; exact hanyF)]
  · intro v hv hrf hch
    subst hch
    rw [hGV] at hv
    simp only [Option.some.injEq] at hv
    cases hm : alookup st2.Items ItemTypeMetadata with
    | none =>
        simp only [getVersionFinish, hm] at hv
        exact Except.noConfusion hv
    | some mi =>
        simp only [getVersionFinish, hm] at hv
        by_cases hfl : (st2.Items.foldl (combineStep p true hash2 (goJoin p mi.Name))
            (mi, false)).2 = true
        · rw [if_pos hfl] at hv
          simp only [Except.ok.injEq] at hv
          have hvItems : v.Items = aput st2.Items ItemTypeMetadata
              (st2.Items.foldl (combineStep p true hash2 (goJoin p mi.Name)) (mi, false)).1 := by
            rw [← hv]
          have hmiName : mi.Name = ItemTypeMetadata := by
            have hl := hchar ItemTypeMetadata
            rw [hm] at hl
            by_cases hc : ((ItemTypeMetadata, false) : GoStr × Bool) ∈ d.files ∧
                sharedHasSuffix ItemTypeMetadata allowedItemExtensions = true
            · rw [if_pos hc] at hl
              exact GetItem_name _ _ _ _ _ mi hl.symm
            · rw [if_neg hc] at hl
              simp [alookup] at hl
          have hnames : ∀ e ∈ st2.Items, e.2.Ftype = ItemTypeRootTarXz →
              e.2.Name = ItemTypeRootTarXz := by
            intro e he hf
            rcases hmem e he with h0 | ⟨_, _, hgi⟩
            · simp at h0
            · exact GetItem_root_name _ _ _ _ _ _ hgi hf
          have hlroot : alookup st2.Items ItemTypeRootTarXz =
              GetItem (goJoin p ItemTypeRootTarXz) ItemTypeRootTarXz
                (fsize (goJoin p ItemTypeRootTarXz)) true hash := by
            rw [hchar ItemTypeRootTarXz, if_pos ⟨hrf, hrootSuf⟩]
          have hsomeRoot : (alookup st2.Items ItemTypeRootTarXz).isSome = true := by
            rw [hlroot]
            exact GetItem_isSome _ _ _ _ _
          obtain ⟨rit, hgiroot⟩ := Option.isSome_iff_exists.mp hsomeRoot
          have hgi2 : GetItem (goJoin p ItemTypeRootTarXz) ItemTypeRootTarXz
              (fsize (goJoin p ItemTypeRootTarXz)) true hash = some rit := by
            rw [← hlroot]
            exact hgiroot
          have hritf : rit.Ftype = ItemTypeRootTarXz :=
            GetItem_default_ftype _ _ _ _ _ _ (by decide) (by decide) (by decide) hgi2
          have hex : ∃ e, e ∈ st2.Items ∧ e.2.Ftype = ItemTypeRootTarXz :=
            ⟨(ItemTypeRootTarXz, rit), alookup_mem hgiroot, hritf⟩
          have hval := combineFold_rootXz_value p true hash2 (goJoin p mi.Name)
            st2.Items (mi, false) hnames hex
          rw [hvItems, alookup_aput, if_pos rfl, hmiName]
          rw [hmiName] at hval
          rw [Option.map_some', hval]
          simp
        · rw [if_neg hfl] at hv
          exact Except.noConfusion hv

/-- Version directory for the C5 counterexample: a complete set of items
(metadata plus a squashfs rootfs) together with an image.yaml that fails to
parse. -/
def versionDirC5 : VersionDir :=
  { files := [(gs "lxd.tar.xz", false), (gs "a.squashfs", false), (gs "image.yaml", false)],
    checksumLines := [],
    yaml := Except.error () }

/-- C5 (counterexample). A directory containing lxd.tar.xz and a squashfs
item but an unparsable image.yaml makes GetVersion fail with the
invalid-image-config error: it neither returns a Version nor fails with the
version-incomplete error, contradicting the claimed dichotomy. -/
theorem GetVersion_invalid_config_cex :
    GetVersion (gs "v") versionDirC5 false (fun _ => []) (fun _ _ => []) (fun _ => 0) =
      some (Except.error VersionErr.invalidImageConfig) ∧
    ((gs "lxd.tar.xz", false) : GoStr × Bool) ∈ versionDirC5.files ∧
    ((gs "a.squashfs", false) : GoStr × Bool) ∈ versionDirC5.files ∧
    goHasSuffix (gs "a.squashfs") ItemExtSquashfs = true :=
  ⟨rfl, by decide, by decide, by decide⟩

/-- Observable used by the C5 witness: whether GetVersion returned a
Version. -/
def isOkVersion : Option (Except VersionErr Version) → Bool
  | some (Except.ok _) => true
  | _ => false

/-- Version directory for the C5 witness: metadata plus a qcow2 rootfs and a
well-formed absent simplestream section. -/
def versionDirW : VersionDir :=
  { files := [(gs "lxd.tar.xz", false), (gs "b.qcow2", false)],
    checksumLines := [],
    yaml := Except.ok none }

/-- C5 (witness). On a concrete complete version directory the amended
theorem yields a Version. -/
theorem GetVersion_complete_iff_witness :
    isOkVersion (GetVersion (gs "v") versionDirW false (fun _ => [])
      (fun _ _ => []) (fun _ => 0)) = true := by
  obtain ⟨v, hv⟩ := (GetVersion_complete_iff (gs "v") versionDirW false (fun _ => [])
    (fun _ _ => []) (fun _ => 0)
    (fun h => absurd h (by simp [versionDirW]))).1.mpr
    ⟨by decide, gs "b.qcow2", by decide, Or.inr (by decide)⟩
  rw [hv]
  rfl

/-- Product (stream/stream.go). Versions mirrors the Go map that stays nil
(none) until the first version is inserted; ReleaseTitle is never set by
GetProduct and stays the zero string. -/
structure Product where
  Aliases : GoStr
  Architecture : GoStr
  Distro : GoStr
  Release : GoStr
  ReleaseTitle : GoStr
  Variant : GoStr
  Versions : Option (List (GoStr × Version))
  Requirements : List (GoStr × GoStr)
deriving DecidableEq

/-- Errors of GetProduct (stream/stream.go): ErrProductInvalidPath, or an
error propagated from GetVersion (any error other than
ErrVersionIncomplete aborts the product read). -/
inductive ProductErr where
  | invalidPath
  | versionError (e : VersionErr)
deriving DecidableEq

/-- strings.ReplaceAll(s, " ", ""): drop every space character. -/
def goDropSpaces (s : GoStr) : GoStr := s.filter (fun c => c ≠ ' ')

/-- Release-alias expansion of GetProduct (stream/stream.go): for each
release-aliases entry whose key equals the product's release, each non-empty
comma-separated token (with spaces removed) contributes the alias
distro/token/variant, plus distro/token when the variant is default. -/
def productAliasAdditions (dist variant rel : GoStr) (cfg : ImageConfig) : List GoStr :=
  (cfg.ReleaseAliases.getD []).foldl (fun acc e =>
    if e.1 = rel then
      (splitOnChar ',' e.2).foldl (fun acc2 al =>
        let al2 := goDropSpaces al
        if al2 = [] then acc2
        else
          acc2 ++ [goJoin (goJoin dist al2) variant] ++
            (if variant = gs "default" then [goJoin dist al2] else [])) acc
    else acc) []

/-- Contents of a product directory: the directory listing and, for each
entry name, the corresponding version directory contents. -/
structure ProductDir where
  entries : List (GoStr × Bool)
  versionDir : GoStr → VersionDir

/-- Version-collection loop of GetProduct (stream/stream.go): skip
non-directories, read each subdirectory with GetVersion (no hash
calculation), skip versions failing with the version-incomplete error, abort
on any other error, fold image-config requirements and release aliases into
the product, and insert the version under the directory name. The
accumulator carries the alias list, the requirements and the versions map
(nil until first insert). -/
def getProductLoop (productRelPath dist rel variant : GoStr) (d : ProductDir)
    (hash : GoStr → GoStr) (hash2 : GoStr → GoStr → GoStr) (fsize : GoStr → Nat) :
    List (GoStr × Bool) →
    List GoStr × List (GoStr × GoStr) × Option (List (GoStr × Version)) →
    Option (Except ProductErr
      (List GoStr × List (GoStr × GoStr) × Option (List (GoStr × Version))))
  | [], acc => some (Except.ok acc)
  | (name, isDir) :: rest, acc =>
      if !isDir then
        getProductLoop productRelPath dist rel variant d hash hash2 fsize rest acc
      else
        match GetVersion (goJoin productRelPath name) (d.versionDir name) false
            hash hash2 fsize with
        | none => none
        | some (Except.error VersionErr.incomplete) =>
            getProductLoop productRelPath dist rel variant d hash hash2 fsize rest acc
        | some (Except.error e) => some (Except.error (ProductErr.versionError e))
        | some (Except.ok version) =>
            let acc1 :=
              match version.ImageConfig with
              | none => acc
              | some cfg =>
                  (acc.1 ++ productAliasAdditions dist variant rel cfg,
                   (cfg.Requirements).getD acc.2.1,
                   acc.2.2)
            getProductLoop productRelPath dist rel variant d hash hash2 fsize rest
              (acc1.1, acc1.2.1, some (aput (acc1.2.2.getD []) name version))

/-- GetProduct (stream/stream.go): validate that the product's relative path
has exactly the five components stream/distro/release/arch/variant, derive
the product fields from the path, read the subdirectories as versions with
getProductLoop, and join the collected aliases with commas. The directory
contents are inputs (the os.Stat existence check is implicit in providing
them). -/
def GetProduct (productRelPath : GoStr) (d : ProductDir)
    (hash : GoStr → GoStr) (hash2 : GoStr → GoStr → GoStr) (fsize : GoStr → Nat) :
    Option (Except ProductErr Product) :=
  let parts := splitOnChar '/' productRelPath
  if parts.length < 5 ∨ 5 < parts.length then some (Except.error ProductErr.invalidPath)
  else
    let variant := parts.getD (parts.length - 1) []
    let arch := parts.getD (parts.length - 2) []
    let rel := parts.getD (parts.length - 3) []
    let dist := parts.getD (parts.length - 4) []
    let aliases0 := [goJoin (goJoin dist rel) variant] ++
      (if variant = gs "default" then [goJoin dist rel] else [])
    match getProductLoop productRelPath dist rel variant d hash hash2 fsize d.entries
        (aliases0, [], none) with
    | none => none
    | some (Except.error e) => some (Except.error e)
    | some (Except.ok acc) =>
        some (Except.ok
          { Aliases := joinChar ',' acc.1, Architecture := arch, Distro := dist,
            Release := rel, ReleaseTitle := [], Variant := variant,
            Versions := acc.2.2, Requirements := acc.2.1 })

/-- Product directory for the C3 failing input: a single hidden version
directory .v1 containing a complete set of items. -/
def productDirC3 : ProductDir :=
  { entries := [(gs ".v1", true)],
    versionDir := fun _ =>
      { files := [(gs "lxd.tar.xz", false), (gs "rootfs.squashfs", false)],
        checksumLines := [],
        yaml := Except.ok none } }

/-- Observable for C3: whether GetProduct surfaces the hidden version .v1 in
the product's version map. -/
def hiddenVersionSurfaced : Bool :=
  match GetProduct (gs "images/ubuntu/noble/amd64/cloud") productDirC3
      (fun _ => []) (fun _ _ => []) (fun _ => 0) with
  | some (Except.ok prod) => (alookup (prod.Versions.getD []) (gs ".v1")).isSome
  | _ => false

/-- C3. GetProduct has no filter on a leading dot: a hidden version
directory .v1 holding a complete version is read by GetVersion and inserted
into the product's version map, so discovery does not treat hidden versions
as nonexistent, contradicting the repository documentation. -/
theorem GetProduct_includes_hidden_version : hiddenVersionSurfaced = true := by rfl

/-- The zero value of Product, produced by indexing a Go product map at a
missing key: all strings empty, the Versions map nil. -/
def zeroProduct : Product :=
  { Aliases := [], Architecture := [], Distro := [], Release := [], ReleaseTitle := [],
    Variant := [], Versions := none, Requirements := [] }

/-- Version loop of one direction of diffProducts (cmd_build.go): for a
product with id present in both maps, walk its versions and record those
missing from the base product's versions into acc[id].Versions. Go
evaluates acc[id].Versions[name] = v; when no entry for id was ever
inserted into acc, acc[id] is the zero Product whose Versions map is nil,
and assigning to an entry of a nil map is a run-time panic, modelled as
none. -/
def diffSideVersions (baseVersions : Option (List (GoStr × Version))) (id : GoStr) :
    List (GoStr × Version) → List (GoStr × Product) → Option (List (GoStr × Product))
  | [], acc => some acc
  | (vname, v) :: rest, acc =>
      match alookup (baseVersions.getD []) vname with
      | some _ => diffSideVersions baseVersions id rest acc
      | none =>
          match alookup acc id with
          | none => none
          | some q =>
              match q.Versions with
              | none => none
              | some vs =>
                  diffSideVersions baseVersions id rest
                    (aput acc id { q with Versions := some (aput vs vname v) })

/-- One direction of diffProducts (cmd_build.go): walk the right-hand
product map; a product missing from base is recorded whole, and for a
common product the versions missing from the base product are recorded via
diffSideVersions. -/
def diffSide (base : List (GoStr × Product)) :
    List (GoStr × Product) → List (GoStr × Product) → Option (List (GoStr × Product))
  | [], acc => some acc
  | (id, p) :: rest, acc =>
      match alookup base id with
      | none => diffSide base rest (aput acc id p)
      | some bp =>
          match diffSideVersions bp.Versions id (p.Versions.getD []) acc with
          | none => none
          | some acc2 => diffSide base rest acc2

/-- diffProducts (cmd_build.go): compare two product maps, returning the
products and product versions present only in oldProducts (first component)
and those present only in newProducts (second component). Go map iteration
order is unspecified; the model iterates in association-list order, which
does not affect the result or the reachability of the nil-map panic
(modelled as none). -/
def diffProducts (oldProducts newProducts : List (GoStr × Product)) :
    Option (List (GoStr × Product) × List (GoStr × Product)) :=
  match diffSide oldProducts newProducts [] with
  | none => none
  | some newSide =>
      match diffSide newProducts oldProducts [] with
      | none => none
      | some oldSide => some (oldSide, newSide)

/-- An empty version value used in the C2 failing input (diffProducts never
reads version contents). -/
def emptyVersion : Version := { Checksums := none, ImageConfig := none, Items := [] }

/-- Old-catalog product for the C2 failing input: one version v1. -/
def productP1 : Product :=
  { zeroProduct with Versions := some [(gs "v1", emptyVersion)] }

/-- On-disk product for the C2 failing input: versions v1 and v2. -/
def productP2 : Product :=
  { zeroProduct with Versions := some [(gs "v1", emptyVersion), (gs "v2", emptyVersion)] }

/-- C2. diffProducts panics instead of returning the diff whenever a
product present in both maps has a version missing from the other side: for
old = (p with v1) and new = (p with v1 and v2), the claimed result is
added = (p with exactly v2), but the code reaches
new[id].Versions[name] = v with new[id] never initialized, a nil-map
assignment panic, modelled as none. -/
theorem diffProducts_panics_on_new_version :
    diffProducts [(gs "p", productP1)] [(gs "p", productP2)] = none := by rfl

/-- ProductCatalog (stream/stream.go). -/
structure ProductCatalog where
  ContentID : GoStr
  Format : GoStr
  DataType : GoStr
  Products : List (GoStr × Product)
deriving DecidableEq

/-- NewCatalog (stream/stream.go) applied to a nil products map. -/
def NewCatalog : ProductCatalog :=
  { ContentID := gs "images", DataType := gs "image-downloads",
    Format := gs "products:1.0", Products := [] }

/-- Checksum phase of a version job in buildProductCatalog (cmd_build.go
247-272): walk the version's items against the parsed checksums map. An
item absent from the map whose type is a vcdiff gets a line appended to the
SHA256SUMS file, built as fmt.Sprintf with the checksum variable, which is
the zero-valued string left by the failed map lookup; any other item must
hash-match (for an absent entry the zero string is compared with the item's
SHA256). Returns the appended lines in order and whether the verification
passed; a mismatch stops the job, keeping the lines appended so far. -/
def checksumPhase (cs : List (GoStr × GoStr)) :
    List (GoStr × Item) → List GoStr → List GoStr × Bool
  | [], acc => (acc.reverse, true)
  | (_, it) :: rest, acc =>
      match alookup cs it.Name with
      | none =>
          if it.Ftype = ItemTypeDiskKVMDelta ∨ it.Ftype = ItemTypeSquashfsDelta then
            checksumPhase cs rest ((([] : GoStr) ++ gs "  " ++ it.Name ++ gs "\n") :: acc)
          else if ([] : GoStr) = it.SHA256 then checksumPhase cs rest acc
          else (acc.reverse, false)
      | some c =>
          if c = it.SHA256 then checksumPhase cs rest acc
          else (acc.reverse, false)

/-- Whether a version job passes checksum verification: vacuously when the
version has no checksums map, otherwise per checksumPhase. -/
def versionJobOk (v : Version) : Bool :=
  match v.Checksums with
  | none => true
  | some cs => (checksumPhase cs v.Items []).2

/-- Delta item for the C1 failing input: a qcow2 vcdiff whose computed
SHA-256 hash is "deadbeef" and whose name is absent from the checksums
map. -/
def deltaItemC1 : Item :=
  { Name := gs "disk.2024_01_01.qcow2.vcdiff", Ftype := ItemTypeDiskKVMDelta,
    Path := gs "x", Size := 0, SHA256 := gs "deadbeef", CombinedSHA256DiskKvmImg := [],
    CombinedSHA256SquashFs := [], CombinedSHA256RootXz := [], DeltaBase := gs "2024_01_01" }

/-- C1. The line appended to SHA256SUMS for a generated delta item absent
from the checksums map is the empty zero-value checksum followed by two
spaces and the name, not the item's computed SHA-256 followed by the name:
the code formats the checksum variable left over from the failed map lookup
instead of item.SHA256. -/
theorem checksum_append_misses_hash :
    checksumPhase [] [(gs "disk.2024_01_01.qcow2.vcdiff", deltaItemC1)] [] =
      ([gs "  disk.2024_01_01.qcow2.vcdiff\n"], true) ∧
    gs "  disk.2024_01_01.qcow2.vcdiff\n" ≠
      deltaItemC1.SHA256 ++ gs "  " ++ deltaItemC1.Name ++ gs "\n" :=
  ⟨rfl, by decide⟩

/-- Per-version jobs of one new product in buildProductCatalog (cmd_build.go
222-280): each job reads the version (the jobVersion oracle stands for
createDeltaFiles followed by GetVersion with hash calculation; none models a
job failure, which only logs and skips), verifies the checksums, and inserts
the version under the product id, taking the mutex. The insertion
catalog.Products[id].Versions[versionName] = *version panics when the
product entry is missing or its Versions map is nil, modelled as none. -/
def addVersionsLoop (jobVersion : GoStr → GoStr → Option Version) (id : GoStr) :
    List GoStr → List (GoStr × Product) → Option (List (GoStr × Product))
  | [], prods => some prods
  | vname :: rest, prods =>
      match jobVersion id vname with
      | none => addVersionsLoop jobVersion id rest prods
      | some version =>
          if versionJobOk version then
            match alookup prods id with
            | none => none
            | some q =>
                match q.Versions with
                | none => none
                | some vs =>
                    addVersionsLoop jobVersion id rest
                      (aput prods id { q with Versions := some (aput vs vname version) })
          else addVersionsLoop jobVersion id rest prods

/-- Catalog-entry initialization in buildProductCatalog (cmd_build.go
206-219): when the catalog has no entry for the product id, insert the
product fetched from the on-disk hierarchy (zero Product when absent) with
a fresh empty versions map. -/
def ensureEntry (products prods : List (GoStr × Product)) (id : GoStr) :
    List (GoStr × Product) :=
  match alookup prods id with
  | some _ => prods
  | none =>
      aput prods id { (alookup products id).getD zeroProduct with Versions := some [] }

/-- Product loop of buildProductCatalog (cmd_build.go 200-281): for each new
product with at least one version, ensure a catalog entry exists, then run
the version jobs. -/
def buildLoop (products : List (GoStr × Product))
    (jobVersion : GoStr → GoStr → Option Version) :
    List (GoStr × Product) → List (GoStr × Product) → Option (List (GoStr × Product))
  | [], prods => some prods
  | (id, p) :: rest, prods =>
      if (p.Versions.getD []).length = 0 then buildLoop products jobVersion rest prods
      else
        match addVersionsLoop jobVersion id (akeys (p.Versions.getD []))
            (ensureEntry products prods id) with
        | none => none
        | some prods2 => buildLoop products jobVersion rest prods2

/-- buildProductCatalog (cmd_build.go): load the previously published
catalog (an absent streams/<v>/<stream>.json yields NewCatalog), diff it
against the products read from the directory hierarchy, and run one job per
new (product, version) pair, inserting the successfully read and verified
versions. All catalog mutations are keyed by distinct (product, version)
pairs and guarded by one mutex, so the worker-pool execution is modelled by
a sequential fold; its outcome is deterministic given the job outcomes. -/
def buildProductCatalog (prevCatalog : Option ProductCatalog)
    (products : List (GoStr × Product))
    (jobVersion : GoStr → GoStr → Option Version) : Option ProductCatalog :=
  let catalog := prevCatalog.getD NewCatalog
  match diffProducts catalog.Products products with
  | none => none
  | some pair =>
      match buildLoop products jobVersion pair.2 catalog.Products with
      | none => none
      | some prods2 => some { catalog with Products := prods2 }

theorem alookup_aput_ne {α : Type} (m : List (GoStr × α)) (k : GoStr) (v : α)
    (n : GoStr) (h : k ≠ n) : alookup (aput m k v) n = alookup m n := by
  rw [alookup_aput, if_neg h]

theorem alookup_isSome_aput {α : Type} (m : List (GoStr × α)) (k : GoStr) (v : α)
    (n : GoStr) (hk : (alookup m k).isSome = true) :
    (alookup (aput m k v) n).isSome = (alookup m n).isSome := by
  rw [alookup_aput]
  by_cases h : k = n
  · rw [if_pos h, ← h, hk]; rfl
  · rw [if_neg h]

/-- The version loop of one diffProducts direction only overwrites map
entries that are already present, so presence of any key is unchanged. -/
theorem diffSideVersions_isSome (bv : Option (List (GoStr × Version))) (id : GoStr) :
    ∀ (vl : List (GoStr × Version)) (acc out : List (GoStr × Product)),
      diffSideVersions bv id vl acc = some out →
      ∀ n, (alookup out n).isSome = (alookup acc n).isSome := by
  intro vl
  induction vl with
  | nil =>
      intro acc out h n
      simp only [diffSideVersions, Option.some.injEq] at h
      subst h; rfl
  | cons e rest ih =>
      obtain ⟨vname, v⟩ := e
      intro acc out h n
      cases hlk : alookup (bv.getD []) vname with
      | some w =>
          simp only [diffSideVersions, hlk] at h
          exact ih acc out h n
      | none =>
          simp only [diffSideVersions, hlk] at h
          cases hacc : alookup acc id with
          | none => rw [hacc] at h; exact Option.noConfusion h
          | some q =>
              simp only [hacc] at h
              cases hqv : q.Versions with
              | none => rw [hqv] at h; exact Option.noConfusion h
              | some vs =>
                  simp only [hqv] at h
                  rw [ih _ out h n]
                  exact alookup_isSome_aput acc id _ n (by rw [hacc]; rfl)

/-- Any key of the accumulated diff side is either a key the accumulator
already had or a key absent from the base map. -/
theorem diffSide_keys (base : List (GoStr × Product)) :
    ∀ (l acc out : List (GoStr × Product)), diffSide base l acc = some out →
      ∀ n, (alookup out n).isSome = true →
        (alookup acc n).isSome = true ∨ alookup base n = none := by
  intro l
  induction l with
  | nil =>
      intro acc out h n hsome
      simp only [diffSide, Option.some.injEq] at h
      subst h
      exact Or.inl hsome
  | cons e rest ih =>
      obtain ⟨id, p⟩ := e
      intro acc out h n hsome
      cases hb : alookup base id with
      | none =>
          simp only [diffSide, hb] at h
          rcases ih (aput acc id p) out h n hsome with h1 | h1
          · rw [alookup_aput] at h1
            by_cases hid : id = n
            · right; rw [← hid]; exact hb
            · rw [if_neg hid] at h1; exact Or.inl h1
          · exact Or.inr h1
      | some bp =>
          simp only [diffSide, hb] at h
          cases hdv : diffSideVersions bp.Versions id (p.Versions.getD []) acc with
          | none => rw [hdv] at h; exact Option.noConfusion h
          | some acc2 =>
              rw [hdv] at h
              rcases ih acc2 out h n hsome with h1 | h1
              · rw [diffSideVersions_isSome bp.Versions id (p.Versions.getD [])
                  acc acc2 hdv n] at h1
                exact Or.inl h1
              · exact Or.inr h1

/-- The version jobs of one product only write the map entry of that
product's id. -/
theorem addVersionsLoop_other (jv : GoStr → GoStr → Option Version) (id : GoStr) :
    ∀ (vl : List GoStr) (prods out : List (GoStr × Product)),
      addVersionsLoop jv id vl prods = some out →
      ∀ n, id ≠ n → alookup out n = alookup prods n := by
  intro vl
  induction vl with
  | nil =>
      intro prods out h n _
      simp only [addVersionsLoop, Option.some.injEq] at h
      subst h; rfl
  | cons vname rest ih =>
      intro prods out h n hne
      cases hj : jv id vname with
      | none =>
          simp only [addVersionsLoop, hj] at h
          exact ih prods out h n hne
      | some version =>
          simp only [addVersionsLoop, hj] at h
          by_cases hok : versionJobOk version = true
          · rw [if_pos hok] at h
            cases hp : alookup prods id with
            | none => rw [hp] at h; exact Option.noConfusion h
            | some q =>
                simp only [hp] at h
                cases hqv : q.Versions with
                | none => rw [hqv] at h; exact Option.noConfusion h
                | some vs =>
                    simp only [hqv] at h
                    rw [ih _ out h n hne]
                    exact alookup_aput_ne _ _ _ _ hne
          · rw [if_neg hok] at h
            exact ih prods out h n hne

/-- The product loop of buildProductCatalog leaves untouched every map key
that is not among the ids of the products being processed. -/
theorem buildLoop_untouched (products : List (GoStr × Product))
    (jv : GoStr → GoStr → Option Version) :
    ∀ (l prods out : List (GoStr × Product)),
      buildLoop products jv l prods = some out →
      ∀ n, alookup l n = none → alookup out n = alookup prods n := by
  intro l
  induction l with
  | nil =>
      intro prods out h n _
      simp only [buildLoop, Option.some.injEq] at h
      subst h; rfl
  | cons e rest ih =>
      obtain ⟨id, p⟩ := e
      intro prods out h n hl
      rw [alookup] at hl
      by_cases hid : id = n
      · rw [if_pos hid] at hl; exact Option.noConfusion hl
      · rw [if_neg hid] at hl
        by_cases hlen : (p.Versions.getD []).length = 0
        · simp only [buildLoop] at h
          rw [if_pos hlen] at h
          exact ih prods out h n hl
        · simp only [buildLoop] at h
          rw [if_neg hlen] at h
          cases hav : addVersionsLoop jv id (akeys (p.Versions.getD []))
              (ensureEntry products prods id) with
          | none => simp only [hav] at h; exact Option.noConfusion h
          | some prods2 =>
              simp only [hav] at h
              rw [ih prods2 out h n hl]
              rw [addVersionsLoop_other jv id _ _ prods2 hav n hid]
              unfold ensureEntry
              cases h2 : alookup prods id with
              | some q => rfl
              | none => exact alookup_aput_ne _ _ _ _ hid

/-- C7. buildProductCatalog never deletes from the catalog: whenever the
function returns a catalog, every (product id, version name) pair present
in the previously published catalog is still present in the returned one,
regardless of the on-disk products and of the job outcomes. -/
theorem buildProductCatalog_preserves (prev : ProductCatalog)
    (products : List (GoStr × Product)) (jobVersion : GoStr → GoStr → Option Version)
    (cat2 : ProductCatalog)
    (hres : buildProductCatalog (some prev) products jobVersion = some cat2)
    (id vname : GoStr) (p : Product)
    (hp : alookup prev.Products id = some p)
    (hv : (alookup (p.Versions.getD []) vname).isSome = true) :
    ∃ p2, alookup cat2.Products id = some p2 ∧
      (alookup (p2.Versions.getD []) vname).isSome = true := by
  simp only [buildProductCatalog, Option.getD_some, diffProducts] at hres
  cases hds1 : diffSide prev.Products products [] with
  | none => rw [hds1] at hres; exact Option.noConfusion hres
  | some newSide =>
      rw [hds1] at hres
      cases hds2 : diffSide products prev.Products [] with
      | none => simp only [hds2] at hres; exact Option.noConfusion hres
      | some oldSide =>
          simp only [hds2] at hres
          cases hb : buildLoop products jobVersion newSide prev.Products with
          | none => simp only [hb] at hres; exact Option.noConfusion hres
          | some prods2 =>
              simp only [hb, Option.some.injEq] at hres
              subst hres
              have hkey : alookup newSide id = none := by
                cases hk : alookup newSide id with
                | none => rfl
                | some q =>
                    rcases diffSide_keys prev.Products products [] newSide hds1 id
                        (by rw [hk]; rfl) with h1 | h1
                    · exact Bool.noConfusion h1
                    · rw [hp] at h1; exact Option.noConfusion h1
              have huntouched :=
                buildLoop_untouched products jobVersion newSide prev.Products prods2 hb id hkey
              refine ⟨p, ?_, hv⟩
              show alookup prods2 id = some p
              rw [huntouched, hp]

/-- Previously published catalog for the C7 witness: one product with one
version. -/
def catalogW : ProductCatalog :=
  { ContentID := gs "images", DataType := gs "image-downloads",
    Format := gs "products:1.0",
    Products := [(gs "ubuntu:noble:amd64:cloud", productP1)] }

/-- Boolean presence of a (product id, version name) pair in an optionally
produced catalog. -/
def pairInCatalog (c : Option ProductCatalog) (id vname : GoStr) : Bool :=
  match c with
  | none => false
  | some cat =>
      match alookup cat.Products id with
      | none => false
      | some p => (alookup (p.Versions.getD []) vname).isSome

theorem buildProductCatalog_preserves_witness :
    pairInCatalog (buildProductCatalog (some catalogW) [] (fun _ _ => none))
      (gs "ubuntu:noble:amd64:cloud") (gs "v1") = true := by
  obtain ⟨p2, h1, h2⟩ :=
    buildProductCatalog_preserves catalogW [] (fun _ _ => none) catalogW rfl
      (gs "ubuntu:noble:amd64:cloud") (gs "v1") productP1 rfl rfl
  have hres : buildProductCatalog (some catalogW) [] (fun _ _ => none) = some catalogW := rfl
  simp only [pairInCatalog, hres, h1, h2]

/-- replace struct of cmd_build.go: old and new path for a file replace. -/
structure Replace where
  OldPath : GoStr
  NewPath : GoStr
deriving DecidableEq

/-- Abstract content of a file during buildIndex publication: the temporary
catalog written for a stream, the temporary index, or anything else. -/
inductive FileContent where
  | oldFile : FileContent
  | tmpCatalog : GoStr → FileContent
  | tmpIndex : FileContent
deriving DecidableEq

/-- A file in the modelled filesystem: its content tag and its mode. -/
structure FsFile where
  content : FileContent
  mode : Nat
deriving DecidableEq

/-- A filesystem operation issued by the final loop of buildIndex. -/
inductive FsOp where
  | rename : GoStr → GoStr → FsOp
  | chmod : GoStr → Nat → FsOp
deriving DecidableEq

/-- Temporary catalog path .<stream>.json.tmp inside the meta directory
(cmd_build.go 85). -/
def catalogTmpPath (metaDir s : GoStr) : GoStr :=
  goJoin metaDir (gs "." ++ s ++ gs ".json.tmp")

/-- Final catalog path <stream>.json inside the meta directory
(cmd_build.go 84). -/
def catalogFinalPath (metaDir s : GoStr) : GoStr := goJoin metaDir (s ++ gs ".json")

/-- Temporary index path .index.json.tmp inside the meta directory
(cmd_build.go 113). -/
def indexTmpPath (metaDir : GoStr) : GoStr := goJoin metaDir (gs ".index.json.tmp")

/-- Final index path index.json inside the meta directory (cmd_build.go
112). -/
def indexFinalPath (metaDir : GoStr) : GoStr := goJoin metaDir (gs "index.json")

/-- The replace entry appended for one stream catalog (cmd_build.go 93). -/
def catalogReplace (metaDir s : GoStr) : Replace :=
  { OldPath := catalogTmpPath metaDir s, NewPath := catalogFinalPath metaDir s }

/-- The replaces list built by buildIndex: one catalog replace per stream in
declared order, then the index replace appended last (cmd_build.go 93 and
124). -/
def buildReplaces (metaDir : GoStr) (streamNames : List GoStr) : List Replace :=
  streamNames.map (catalogReplace metaDir) ++
    [{ OldPath := indexTmpPath metaDir, NewPath := indexFinalPath metaDir }]

/-- The final loop of buildIndex (cmd_build.go 130-141): for each replace in
order, rename the temporary file onto the final path and chmod the final
path to 0644. -/
def publishOps : List Replace → List FsOp
  | [] => []
  | r :: rest =>
      FsOp.rename r.OldPath r.NewPath :: FsOp.chmod r.NewPath 0o644 :: publishOps rest

/-- The operation sequence buildIndex issues after writing the temporary
files. -/
def opsOf (metaDir : GoStr) (streams : List GoStr) : List FsOp :=
  publishOps (buildReplaces metaDir streams)

/-- Go map-free removal of a path from the modelled filesystem. -/
def aremove {α : Type} : List (GoStr × α) → GoStr → List (GoStr × α)
  | [], _ => []
  | (k, v) :: rest, key => if k = key then aremove rest key else (k, v) :: aremove rest key

/-- Effect of one operation on the modelled filesystem: os.Rename moves the
file at the old path onto the new path (atomically replacing it), os.Chmod
sets the mode; an operation on a missing path leaves the state unchanged
(in the modelled runs every source path exists when its operation runs). -/
def applyOp (fs : List (GoStr × FsFile)) : FsOp → List (GoStr × FsFile)
  | FsOp.rename old new =>
      match alookup fs old with
      | none => fs
      | some f => aput (aremove fs old) new f
  | FsOp.chmod pth m =>
      match alookup fs pth with
      | none => fs
      | some f => aput fs pth { f with mode := m }

/-- Apply a sequence of operations in order. -/
def applyOps (fs : List (GoStr × FsFile)) : List FsOp → List (GoStr × FsFile)
  | [] => fs
  | op :: rest => applyOps (applyOp fs op) rest

/-- The paths an operation touches. -/
def opPaths : FsOp → List GoStr
  | FsOp.rename old new => [old, new]
  | FsOp.chmod pth _ => [pth]

/-- Filesystem state right after buildIndex wrote all temporary files: each
stream's temporary catalog plus the temporary index (written with
WriteJSONFile before any rename, cmd_build.go 86 and 115). -/
def initFs (metaDir : GoStr) (streams : List GoStr) : List (GoStr × FsFile) :=
  streams.map (fun s => (catalogTmpPath metaDir s,
    { content := FileContent.tmpCatalog s, mode := 384 })) ++
  [(indexTmpPath metaDir, { content := FileContent.tmpIndex, mode := 384 })]

/-- Whether the file at a path currently has the given content. -/
def hasContent (fs : List (GoStr × FsFile)) (p : GoStr) (c : FileContent) : Bool :=
  match alookup fs p with
  | none => false
  | some f => f.content = c

theorem publishOps_append : ∀ (a b : List Replace),
    publishOps (a ++ b) = publishOps a ++ publishOps b := by
  intro a b
  induction a with
  | nil => rfl
  | cons r rest ih =>
      show FsOp.rename r.OldPath r.NewPath :: FsOp.chmod r.NewPath 0o644 ::
          publishOps (rest ++ b) = publishOps (r :: rest) ++ publishOps b
      rw [ih]
      rfl

theorem alookup_aremove_ne {α : Type} :
    ∀ (m : List (GoStr × α)) (k p : GoStr), k ≠ p →
      alookup (aremove m k) p = alookup m p := by
  intro m
  induction m with
  | nil => intro k p _; rfl
  | cons e rest ih =>
      obtain ⟨k', v'⟩ := e
      intro k p hne
      by_cases h1 : k' = k
      · have h2 : k' ≠ p := fun he => hne (h1.symm.trans he)
        simp only [aremove, if_pos h1, alookup, if_neg h2]
        exact ih k p hne
      · simp only [aremove, if_neg h1, alookup]
        by_cases h3 : k' = p
        · rw [if_pos h3, if_pos h3]
        · rw [if_neg h3, if_neg h3]
          exact ih k p hne

theorem applyOp_untouched (fs : List (GoStr × FsFile)) (op : FsOp) (p : GoStr)
    (h : p ∉ opPaths op) : alookup (applyOp fs op) p = alookup fs p := by
  cases op with
  | rename old new =>
      have hold : old ≠ p := by
        intro he; apply h; rw [← he]; exact List.mem_cons_self _ _
      have hnew : new ≠ p := by
        intro he; apply h; rw [← he]
        exact List.mem_cons_of_mem _ (List.mem_singleton_self _)
      cases hlo : alookup fs old with
      | none => simp only [applyOp, hlo]
      | some f =>
          simp only [applyOp, hlo]
          rw [alookup_aput, if_neg hnew, alookup_aremove_ne _ _ _ hold]
  | chmod pth m =>
      have hp : pth ≠ p := by
        intro he; apply h; rw [← he]; exact List.mem_singleton_self _
      cases hlo : alookup fs pth with
      | none => simp only [applyOp, hlo]
      | some f =>
          simp only [applyOp, hlo]
          rw [alookup_aput, if_neg hp]

theorem applyOps_append : ∀ (a b : List FsOp) (fs : List (GoStr × FsFile)),
    applyOps fs (a ++ b) = applyOps (applyOps fs a) b := by
  intro a
  induction a with
  | nil => intro b fs; rfl
  | cons op rest ih => intro b fs; simp only [List.cons_append, applyOps]; exact ih b _

theorem applyOps_untouched : ∀ (ops : List FsOp) (fs : List (GoStr × FsFile)) (p : GoStr),
    (∀ op, op ∈ ops → p ∉ opPaths op) → alookup (applyOps fs ops) p = alookup fs p := by
  intro ops
  induction ops with
  | nil => intro fs p _; rfl
  | cons op rest ih =>
      intro fs p h
      simp only [applyOps]
      rw [ih _ p (fun o ho => h o (List.mem_cons_of_mem op ho))]
      exact applyOp_untouched fs op p (h op (List.mem_cons_self op rest))

/-- Every path touched by the catalog part of the publish sequence is a
temporary or final catalog path of one of the streams. -/
theorem publishOps_mem_paths (metaDir : GoStr) :
    ∀ (l : List GoStr) (op : FsOp), op ∈ publishOps (l.map (catalogReplace metaDir)) →
      ∀ p, p ∈ opPaths op →
        ∃ u, u ∈ l ∧ (p = catalogTmpPath metaDir u ∨ p = catalogFinalPath metaDir u) := by
  intro l
  induction l with
  | nil => intro op hop; exact absurd hop (List.not_mem_nil op)
  | cons t rest ih =>
      intro op hop p hp
      simp only [List.map_cons, publishOps] at hop
      rcases List.mem_cons.mp hop with h1 | h1
      · subst h1
        rcases List.mem_cons.mp hp with he | he
        · exact ⟨t, List.mem_cons_self t rest, Or.inl he⟩
        · rw [List.mem_singleton] at he
          exact ⟨t, List.mem_cons_self t rest, Or.inr he⟩
      · rcases List.mem_cons.mp h1 with h2 | h2
        · subst h2
          simp only [opPaths, List.mem_singleton] at hp
          exact ⟨t, List.mem_cons_self t rest, Or.inr hp⟩
        · obtain ⟨u, hu, hcase⟩ := ih op h2 p hp
          exact ⟨u, List.mem_cons_of_mem t hu, hcase⟩

/-- After the catalog part of the publish sequence, the final catalog file
of every stream holds the renamed temporary content with mode 0644. -/
theorem catOps_places (metaDir : GoStr) :
    ∀ (l : List GoStr) (fs : List (GoStr × FsFile)) (s : GoStr) (f : FsFile),
      s ∈ l → l.Nodup →
      (∀ t u, t ∈ l → u ∈ l → t ≠ u →
        catalogTmpPath metaDir t ≠ catalogTmpPath metaDir u) →
      (∀ t u, t ∈ l → u ∈ l → t ≠ u →
        catalogFinalPath metaDir t ≠ catalogFinalPath metaDir u) →
      (∀ t u, t ∈ l → u ∈ l →
        catalogTmpPath metaDir t ≠ catalogFinalPath metaDir u) →
      alookup fs (catalogTmpPath metaDir s) = some f →
      alookup (applyOps fs (publishOps (l.map (catalogReplace metaDir))))
        (catalogFinalPath metaDir s) = some { content := f.content, mode := 0o644 } := by
  intro l
  induction l with
  | nil => intro fs s f hs; exact absurd hs (List.not_mem_nil s)
  | cons t rest ih =>
      intro fs s f hs hnd hTT hFF hTF htmp
      simp only [List.map_cons, publishOps, catalogReplace, applyOps]
      by_cases hst : s = t
      · subst hst
        have h1 : applyOp fs (FsOp.rename (catalogTmpPath metaDir s)
            (catalogFinalPath metaDir s)) =
            aput (aremove fs (catalogTmpPath metaDir s)) (catalogFinalPath metaDir s) f := by
          simp only [applyOp, htmp]
        have hl : alookup (aput (aremove fs (catalogTmpPath metaDir s))
            (catalogFinalPath metaDir s) f) (catalogFinalPath metaDir s) = some f := by
          rw [alookup_aput, if_pos rfl]
        have h2 : applyOp (aput (aremove fs (catalogTmpPath metaDir s))
            (catalogFinalPath metaDir s) f)
            (FsOp.chmod (catalogFinalPath metaDir s) 0o644) =
            aput (aput (aremove fs (catalogTmpPath metaDir s))
              (catalogFinalPath metaDir s) f)
              (catalogFinalPath metaDir s) { content := f.content, mode := 0o644 } := by
          simp only [applyOp, hl]
        rw [h1, h2]
        have hside : ∀ op, op ∈ publishOps (rest.map (catalogReplace metaDir)) →
            catalogFinalPath metaDir s ∉ opPaths op := by
          intro op hop hmem
          obtain ⟨u, hu, hcase⟩ := publishOps_mem_paths metaDir rest op hop _ hmem
          have hur : u ∈ s :: rest := List.mem_cons_of_mem s hu
          rcases hcase with he | he
          · exact hTF u s hur (List.mem_cons_self s rest) he.symm
          · have hsu : s ≠ u := fun h => (List.nodup_cons.mp hnd).1 (by rw [h]; exact hu)
            exact hFF s u (List.mem_cons_self s rest) hur hsu he
        rw [applyOps_untouched _ _ _ hside, alookup_aput, if_pos rfl]
      · have hsr : s ∈ rest := (List.mem_cons.mp hs).resolve_left hst
        have hrn : catalogTmpPath metaDir s ∉ opPaths (FsOp.rename (catalogTmpPath metaDir t)
            (catalogFinalPath metaDir t)) := by
          intro hmem
          rcases List.mem_cons.mp hmem with he | he
          · exact hTT s t hs (List.mem_cons_self t rest) hst he
          · rw [List.mem_singleton] at he
            exact hTF s t hs (List.mem_cons_self t rest) he
        have hch : catalogTmpPath metaDir s ∉
            opPaths (FsOp.chmod (catalogFinalPath metaDir t) 0o644) := by
          intro hmem
          simp only [opPaths, List.mem_singleton] at hmem
          exact hTF s t hs (List.mem_cons_self t rest) hmem
        have htmp2 : alookup (applyOp (applyOp fs (FsOp.rename (catalogTmpPath metaDir t)
            (catalogFinalPath metaDir t))) (FsOp.chmod (catalogFinalPath metaDir t) 0o644))
            (catalogTmpPath metaDir s) = some f := by
          rw [applyOp_untouched _ _ _ hch, applyOp_untouched _ _ _ hrn]
          exact htmp
        exact ih _ s f hsr (List.nodup_cons.mp hnd).2
          (fun a b ha hb hne => hTT a b (List.mem_cons_of_mem t ha)
            (List.mem_cons_of_mem t hb) hne)
          (fun a b ha hb hne => hFF a b (List.mem_cons_of_mem t ha)
            (List.mem_cons_of_mem t hb) hne)
          (fun a b ha hb => hTF a b (List.mem_cons_of_mem t ha)
            (List.mem_cons_of_mem t hb))
          htmp2

theorem alookup_initFs_tmp (metaDir : GoStr) :
    ∀ (l : List GoStr) (s : GoStr), s ∈ l →
      (∀ t u, t ∈ l → u ∈ l → t ≠ u →
        catalogTmpPath metaDir t ≠ catalogTmpPath metaDir u) →
      alookup (initFs metaDir l) (catalogTmpPath metaDir s) =
        some { content := FileContent.tmpCatalog s, mode := 384 } := by
  intro l
  induction l with
  | nil => intro s hs _; exact absurd hs (List.not_mem_nil s)
  | cons t rest ih =>
      intro s hs hTT
      simp only [initFs, List.map_cons, List.cons_append, alookup]
      by_cases hst : t = s
      · rw [if_pos (by rw [hst]), hst]
      · have hne := hTT t s (List.mem_cons_self t rest) hs hst
        rw [if_neg hne]
        have hsr : s ∈ rest := (List.mem_cons.mp hs).resolve_left (fun h => hst h.symm)
        exact ih s hsr (fun a b ha hb hne2 => hTT a b (List.mem_cons_of_mem t ha)
          (List.mem_cons_of_mem t hb) hne2)

theorem alookup_initFs_idxTmp (metaDir : GoStr) :
    ∀ (l : List GoStr), (∀ u, u ∈ l → indexTmpPath metaDir ≠ catalogTmpPath metaDir u) →
      alookup (initFs metaDir l) (indexTmpPath metaDir) =
        some { content := FileContent.tmpIndex, mode := 384 } := by
  intro l
  induction l with
  | nil =>
      intro _
      simp [initFs, alookup]
  | cons t rest ih =>
      intro h
      simp only [initFs, List.map_cons, List.cons_append, alookup]
      rw [if_neg (fun he => h t (List.mem_cons_self t rest) he.symm)]
      exact ih (fun u hu => h u (List.mem_cons_of_mem t hu))

theorem alookup_initFs_none (metaDir : GoStr) :
    ∀ (l : List GoStr) (p : GoStr), (∀ u, u ∈ l → p ≠ catalogTmpPath metaDir u) →
      p ≠ indexTmpPath metaDir → alookup (initFs metaDir l) p = none := by
  intro l
  induction l with
  | nil =>
      intro p _ hp
      simp only [initFs, List.map_nil, List.nil_append, alookup]
      rw [if_neg (fun he => hp he.symm)]
  | cons t rest ih =>
      intro p h hp
      simp only [initFs, List.map_cons, List.cons_append, alookup]
      rw [if_neg (fun he => h t (List.mem_cons_self t rest) he.symm)]
      exact ih p (fun u hu => h u (List.mem_cons_of_mem t hu)) hp

/-- C6. buildIndex publishes atomically and in order: the operation
sequence is exactly the per-stream catalog rename and chmod pairs in
declared order followed by the index rename and chmod; after any number of
executed operations, whenever the final index path holds the new index,
every stream's final catalog path holds that stream's new catalog; and
every published path ends the run with mode 0644. The hypotheses say the
involved temporary and final paths are pairwise distinct, which holds for
any set of distinct stream names. -/
theorem buildIndex_publish_order (metaDir : GoStr) (streams : List GoStr)
    (hnd : streams.Nodup)
    (hTT : ∀ t u, t ∈ streams → u ∈ streams → t ≠ u →
      catalogTmpPath metaDir t ≠ catalogTmpPath metaDir u)
    (hFF : ∀ t u, t ∈ streams → u ∈ streams → t ≠ u →
      catalogFinalPath metaDir t ≠ catalogFinalPath metaDir u)
    (hTF : ∀ t u, t ∈ streams → u ∈ streams →
      catalogTmpPath metaDir t ≠ catalogFinalPath metaDir u)
    (hIT : ∀ s, s ∈ streams → indexTmpPath metaDir ≠ catalogTmpPath metaDir s ∧
      indexTmpPath metaDir ≠ catalogFinalPath metaDir s)
    (hIF : ∀ s, s ∈ streams → indexFinalPath metaDir ≠ catalogTmpPath metaDir s ∧
      indexFinalPath metaDir ≠ catalogFinalPath metaDir s)
    (hII : indexTmpPath metaDir ≠ indexFinalPath metaDir) :
    opsOf metaDir streams =
      publishOps (streams.map (catalogReplace metaDir)) ++
        [FsOp.rename (indexTmpPath metaDir) (indexFinalPath metaDir),
         FsOp.chmod (indexFinalPath metaDir) 0o644] ∧
    (∀ k, hasContent (applyOps (initFs metaDir streams) ((opsOf metaDir streams).take k))
        (indexFinalPath metaDir) FileContent.tmpIndex = true →
      ∀ s, s ∈ streams →
        hasContent (applyOps (initFs metaDir streams) ((opsOf metaDir streams).take k))
          (catalogFinalPath metaDir s) (FileContent.tmpCatalog s) = true) ∧
    (∀ r, r ∈ buildReplaces metaDir streams →
      ∃ f, alookup (applyOps (initFs metaDir streams) (opsOf metaDir streams)) r.NewPath =
        some f ∧ f.mode = 0o644) := by
  have hOps : opsOf metaDir streams =
      publishOps (streams.map (catalogReplace metaDir)) ++
        [FsOp.rename (indexTmpPath metaDir) (indexFinalPath metaDir),
         FsOp.chmod (indexFinalPath metaDir) 0o644] := by
    simp only [opsOf, buildReplaces, publishOps_append]
    rfl
  refine ⟨hOps, ?_, ?_⟩
  · intro k hvis s hs
    rw [hOps] at hvis ⊢
    rw [List.take_append_eq_append_take] at hvis ⊢
    rw [applyOps_append] at hvis ⊢
    by_cases hk : (publishOps (streams.map (catalogReplace metaDir))).length ≤ k
    · rw [List.take_of_length_le hk]
      have htmp := alookup_initFs_tmp metaDir streams s hs hTT
      have hplace := catOps_places metaDir streams (initFs metaDir streams) s _
        hs hnd hTT hFF hTF htmp
      have hside : ∀ op, op ∈ ([FsOp.rename (indexTmpPath metaDir) (indexFinalPath metaDir),
          FsOp.chmod (indexFinalPath metaDir) 0o644].take
            (k - (publishOps (streams.map (catalogReplace metaDir))).length)) →
          catalogFinalPath metaDir s ∉ opPaths op := by
        intro op hop hmem
        have hop2 := List.take_subset _ _ hop
        rcases List.mem_cons.mp hop2 with h1 | h1
        · subst h1
          rcases List.mem_cons.mp hmem with he | he
          · exact (hIT s hs).2 he.symm
          · rw [List.mem_singleton] at he
            exact (hIF s hs).2 he.symm
        · rw [List.mem_singleton] at h1
          subst h1
          simp only [opPaths, List.mem_singleton] at hmem
          exact (hIF s hs).2 hmem.symm
      simp only [hasContent]
      rw [applyOps_untouched _ _ _ hside, hplace]
      simp
    · have hklt : k < (publishOps (streams.map (catalogReplace metaDir))).length :=
        Nat.lt_of_not_le hk
      rw [Nat.sub_eq_zero_of_le (Nat.le_of_lt hklt), List.take_zero] at hvis
      simp only [applyOps] at hvis
      have hside : ∀ op, op ∈ (publishOps (streams.map (catalogReplace metaDir))).take k →
          indexFinalPath metaDir ∉ opPaths op := by
        intro op hop hmem
        obtain ⟨u, hu, hcase⟩ := publishOps_mem_paths metaDir streams op
          (List.take_subset _ _ hop) _ hmem
        rcases hcase with he | he
        · exact (hIF u hu).1 he
        · exact (hIF u hu).2 he
      simp only [hasContent] at hvis
      rw [applyOps_untouched _ _ _ hside] at hvis
      rw [alookup_initFs_none metaDir streams _ (fun u hu => (hIF u hu).1)
        (Ne.symm hII)] at hvis
      exact absurd hvis (by simp)
  · intro r hr
    rw [hOps, applyOps_append]
    rw [buildReplaces, List.mem_append] at hr
    rcases hr with hr | hr
    · obtain ⟨s, hs, hrEq⟩ := List.mem_map.mp hr
      subst hrEq
      have htmp := alookup_initFs_tmp metaDir streams s hs hTT
      have hplace := catOps_places metaDir streams (initFs metaDir streams) s _
        hs hnd hTT hFF hTF htmp
      have hside : ∀ op, op ∈ [FsOp.rename (indexTmpPath metaDir) (indexFinalPath metaDir),
          FsOp.chmod (indexFinalPath metaDir) 0o644] →
          catalogFinalPath metaDir s ∉ opPaths op := by
        intro op hop hmem
        rcases List.mem_cons.mp hop with h1 | h1
        · subst h1
          rcases List.mem_cons.mp hmem with he | he
          · exact (hIT s hs).2 he.symm
          · rw [List.mem_singleton] at he
            exact (hIF s hs).2 he.symm
        · rw [List.mem_singleton] at h1
          subst h1
          simp only [opPaths, List.mem_singleton] at hmem
          exact (hIF s hs).2 hmem.symm
      refine ⟨{ content := FileContent.tmpCatalog s, mode := 0o644 }, ?_, rfl⟩
      simp only [catalogReplace]
      rw [applyOps_untouched _ _ _ hside, hplace]
    · rw [List.mem_singleton] at hr
      subst hr
      have hside : ∀ op, op ∈ publishOps (streams.map (catalogReplace metaDir)) →
          indexTmpPath metaDir ∉ opPaths op := by
        intro op hop hmem
        obtain ⟨u, hu, hcase⟩ := publishOps_mem_paths metaDir streams op hop _ hmem
        rcases hcase with he | he
        · exact (hIT u hu).1 he
        · exact (hIT u hu).2 he
      have hidxTmp : alookup (applyOps (initFs metaDir streams)
          (publishOps (streams.map (catalogReplace metaDir)))) (indexTmpPath metaDir) =
          some { content := FileContent.tmpIndex, mode := 384 } := by
        rw [applyOps_untouched _ _ _ hside]
        exact alookup_initFs_idxTmp metaDir streams (fun u hu => (hIT u hu).1)
      refine ⟨{ content := FileContent.tmpIndex, mode := 0o644 }, ?_, rfl⟩
      simp [applyOps, applyOp, hidxTmp, alookup_aput]

theorem buildIndex_publish_order_witness :
    hasContent
      (applyOps (initFs (gs "streams/v1") [gs "images"])
        ((opsOf (gs "streams/v1") [gs "images"]).take 3))
      (catalogFinalPath (gs "streams/v1") (gs "images"))
      (FileContent.tmpCatalog (gs "images")) = true := by
  have hTT : ∀ t u, t ∈ [gs "images"] → u ∈ [gs "images"] → t ≠ u →
      catalogTmpPath (gs "streams/v1") t ≠ catalogTmpPath (gs "streams/v1") u := by
    intro t u ht hu hne
    rw [List.mem_singleton] at ht hu
    exact absurd (ht.trans hu.symm) hne
  have hFF : ∀ t u, t ∈ [gs "images"] → u ∈ [gs "images"] → t ≠ u →
      catalogFinalPath (gs "streams/v1") t ≠ catalogFinalPath (gs "streams/v1") u := by
    intro t u ht hu hne
    rw [List.mem_singleton] at ht hu
    exact absurd (ht.trans hu.symm) hne
  have hTF : ∀ t u, t ∈ [gs "images"] → u ∈ [gs "images"] →
      catalogTmpPath (gs "streams/v1") t ≠ catalogFinalPath (gs "streams/v1") u := by
    intro t u ht hu
    rw [List.mem_singleton] at ht hu
    subst ht; subst hu
    decide
  have hIT : ∀ s, s ∈ [gs "images"] →
      indexTmpPath (gs "streams/v1") ≠ catalogTmpPath (gs "streams/v1") s ∧
      indexTmpPath (gs "streams/v1") ≠ catalogFinalPath (gs "streams/v1") s := by
    intro s hsm
    rw [List.mem_singleton] at hsm
    subst hsm
    exact ⟨by decide, by decide⟩
  have hIF : ∀ s, s ∈ [gs "images"] →
      indexFinalPath (gs "streams/v1") ≠ catalogTmpPath (gs "streams/v1") s ∧
      indexFinalPath (gs "streams/v1") ≠ catalogFinalPath (gs "streams/v1") s := by
    intro s hsm
    rw [List.mem_singleton] at hsm
    subst hsm
    exact ⟨by decide, by decide⟩
  have h := buildIndex_publish_order (gs "streams/v1") [gs "images"] (by decide)
    hTT hFF hTF hIT hIF (by decide)
  exact h.2.1 3 (by decide) (gs "images") (by decide)

/-- Modelled from the spec: Go string comparison (alphabetical order,
character by character), used to sort product versions for retention. -/
def goStrLt : GoStr → GoStr → Bool
  | [], [] => false
  | [], _ :: _ => true
  | _ :: _, [] => false
  | a :: as, b :: bs => if a < b then true else if b < a then false else goStrLt as bs

/-- Modelled from the spec: the number of catalog-referenced versions
alphabetically strictly larger than v. -/
def countGreater (refs : List GoStr) (v : GoStr) : Nat :=
  (refs.filter (fun w => goStrLt v w)).length

/-- Modelled from the spec: per-product retention of the prune command
(the prune source is not part of the repository snapshot, so this follows
the prune documentation and TestPruneOldVersions). Product versions are
retrieved from the existing product catalog (catalogVersions); a referenced
version is removed when at least retainBuilds referenced versions are
alphabetically larger, keeping the latest retainBuilds referenced versions;
on-disk versions the catalog does not reference are not touched (the
--dangling flag is off). retainBuilds below 1 fails with the source's error
message. The result is the list of on-disk versions remaining after the
prune. -/
def pruneStreamProductVersions (catalogVersions disk : List GoStr)
    (retainBuilds : Int) : Except GoStr (List GoStr) :=
  if retainBuilds < 1 then
    Except.error (gs "At least 1 product version must be retained")
  else
    Except.ok (disk.filter (fun v =>
      !(decide (v ∈ catalogVersions) &&
        decide (retainBuilds ≤ (countGreater catalogVersions v : Int)))))

theorem goStrLt_irrefl : ∀ a : GoStr, goStrLt a a = false := by
  intro a
  induction a with
  | nil => rfl
  | cons c rest ih => simp [goStrLt, lt_irrefl c, ih]

theorem goStrLt_trans : ∀ a b c : GoStr, goStrLt a b = true → goStrLt b c = true →
    goStrLt a c = true := by
  intro a
  induction a with
  | nil =>
      intro b c hab hbc
      cases b with
      | nil => exact absurd hab (by simp [goStrLt])
      | cons y bs =>
          cases c with
          | nil => exact absurd hbc (by simp [goStrLt])
          | cons z cs => rfl
  | cons x as ih =>
      intro b c hab hbc
      cases b with
      | nil => exact absurd hab (by simp [goStrLt])
      | cons y bs =>
          cases c with
          | nil => exact absurd hbc (by simp [goStrLt])
          | cons z cs =>
              simp only [goStrLt] at hab hbc ⊢
              by_cases hxy : x < y
              · by_cases hyz : y < z
                · rw [if_pos (lt_trans hxy hyz)]
                · rw [if_neg hyz] at hbc
                  by_cases hzy : z < y
                  · rw [if_pos hzy] at hbc; exact absurd hbc (by simp)
                  · have hyz2 : y = z := le_antisymm (le_of_not_lt hzy) (le_of_not_lt hyz)
                    rw [if_pos (hyz2 ▸ hxy)]
              · rw [if_neg hxy] at hab
                by_cases hyx : y < x
                · rw [if_pos hyx] at hab; exact absurd hab (by simp)
                · rw [if_neg hyx] at hab
                  have hxy2 : x = y := le_antisymm (le_of_not_lt hyx) (le_of_not_lt hxy)
                  subst hxy2
                  by_cases hxz : x < z
                  · rw [if_pos hxz]
                  · rw [if_neg hxz] at hbc ⊢
                    by_cases hzx : z < x
                    · rw [if_pos hzx] at hbc; exact absurd hbc (by simp)
                    · rw [if_neg hzx] at hbc ⊢
                      exact ih bs cs hab hbc

theorem goStrLt_total : ∀ a b : GoStr, a = b ∨ goStrLt a b = true ∨ goStrLt b a = true := by
  intro a
  induction a with
  | nil =>
      intro b
      cases b with
      | nil => exact Or.inl rfl
      | cons y bs => exact Or.inr (Or.inl rfl)
  | cons x as ih =>
      intro b
      cases b with
      | nil => exact Or.inr (Or.inr rfl)
      | cons y bs =>
          rcases lt_trichotomy x y with h | h | h
          · refine Or.inr (Or.inl ?_)
            simp [goStrLt, h]
          · subst h
            rcases ih bs with h2 | h2 | h2
            · exact Or.inl (by rw [h2])
            · refine Or.inr (Or.inl ?_)
              simp [goStrLt, lt_irrefl x, h2]
            · refine Or.inr (Or.inr ?_)
              simp [goStrLt, lt_irrefl x, h2]
          · refine Or.inr (Or.inr ?_)
            simp [goStrLt, h]

theorem filter_length_mono {α : Type} (p q : α → Bool) (h : ∀ a, p a = true → q a = true) :
    ∀ l : List α, (l.filter p).length ≤ (l.filter q).length := by
  intro l
  induction l with
  | nil => exact Nat.le_refl 0
  | cons a rest ih =>
      cases hp : p a with
      | true =>
          simp only [List.filter_cons, hp, h a hp, if_true, List.length_cons]
          exact Nat.succ_le_succ ih
      | false =>
          simp only [List.filter_cons, hp, if_false]
          cases hq : q a with
          | true =>
              simp only [hq, if_true, List.length_cons]
              exact Nat.le_succ_of_le ih
          | false =>
              rw [if_neg (show ¬(false = true) by decide)]
              exact ih

/-- Adding a strictly larger referenced version strictly increases the
count of versions larger than the smaller one. -/
theorem countGreater_lt (v w : GoStr) (hlt : goStrLt v w = true) :
    ∀ refs : List GoStr, w ∈ refs → countGreater refs w < countGreater refs v := by
  intro refs
  induction refs with
  | nil => intro h; exact absurd h (List.not_mem_nil w)
  | cons a rest ih =>
      intro hmem
      rcases List.mem_cons.mp hmem with he | hin
      · subst he
        have h1 : countGreater (w :: rest) w = countGreater rest w := by
          simp [countGreater, List.filter_cons, goStrLt_irrefl]
        have h2 : countGreater (w :: rest) v = countGreater rest v + 1 := by
          simp [countGreater, List.filter_cons, hlt]
        rw [h1, h2]
        exact Nat.lt_succ_of_le
          (filter_length_mono _ _ (fun u hu => goStrLt_trans v w u hlt hu) rest)
      · have hrec := ih hin
        by_cases hwa : goStrLt w a = true
        · have hva : goStrLt v a = true := goStrLt_trans v w a hlt hwa
          have h1 : countGreater (a :: rest) w = countGreater rest w + 1 := by
            simp [countGreater, List.filter_cons, hwa]
          have h2 : countGreater (a :: rest) v = countGreater rest v + 1 := by
            simp [countGreater, List.filter_cons, hva]
          rw [h1, h2]
          exact Nat.succ_lt_succ hrec
        · have h1 : countGreater (a :: rest) w = countGreater rest w := by
            simp [countGreater, List.filter_cons, hwa]
          by_cases hva : goStrLt v a = true
          · have h2 : countGreater (a :: rest) v = countGreater rest v + 1 := by
              simp [countGreater, List.filter_cons, hva]
            rw [h1, h2]
            exact Nat.lt_succ_of_lt hrec
          · have h2 : countGreater (a :: rest) v = countGreater rest v := by
              simp [countGreater, List.filter_cons, hva]
            rw [h1, h2]
            exact hrec

/-- A duplicate-free list whose elements map injectively to naturals below
k has at most k elements. -/
theorem nodup_length_le_of_lt_k {k : Nat} :
    ∀ (S : List GoStr) (f : GoStr → Nat), S.Nodup →
      (∀ v, v ∈ S → f v < k) →
      (∀ v w, v ∈ S → w ∈ S → f v = f w → v = w) →
      S.length ≤ k := by
  intro S f hnd hbound hinj
  have h1 : (S.attach.map (fun x => (⟨f x.1, hbound x.1 x.2⟩ : Fin k))).Nodup := by
    apply List.Nodup.map_on
    · intro x hx y hy heq
      exact Subtype.ext (hinj x.1 y.1 x.2 y.2 (congrArg Fin.val heq))
    · exact List.nodup_attach.mpr hnd
  have h2 := List.Nodup.length_le_card h1
  rw [List.length_map, List.length_attach, Fintype.card_fin] at h2
  exact h2

/-- Catalog-referenced versions in the C4 counterexample, following the
repository's TestPruneOldVersions scenario. -/
def refsC4 : List GoStr :=
  [gs "2023_01_01", gs "2024_01_01", gs "2025_01_01", gs "2026_01_01"]

/-- On-disk versions in the C4 counterexample: the referenced ones plus two
complete versions not yet referenced by the catalog. -/
def diskC4 : List GoStr := refsC4 ++ [gs "2027_01_01", gs "2028_01_01"]

/-- C4 counterexample: with the catalog referencing 2023-2026 and the disk
also holding the complete but unreferenced 2027 and 2028 (the
TestPruneOldVersions scenario), pruning with retain-builds 2 leaves four
versions (2025-2028) on disk: the remaining set has more than K = 2
complete versions and is not the two alphabetically largest, because prune
only removes versions referenced by the product catalog. -/
theorem prune_keeps_unreferenced :
    pruneStreamProductVersions refsC4 diskC4 2 =
      Except.ok [gs "2025_01_01", gs "2026_01_01", gs "2027_01_01", gs "2028_01_01"] ∧
    ¬([gs "2025_01_01", gs "2026_01_01", gs "2027_01_01", gs "2028_01_01"].length ≤ 2) :=
  ⟨rfl, by decide⟩

/-- C4 amended: for retainBuilds = k ≥ 1, pruneStreamProductVersions keeps
exactly the on-disk versions that are either unreferenced by the product
catalog or among the k alphabetically largest referenced versions; for a
duplicate-free disk listing at most k referenced versions remain (the full
remaining set may be larger, as unreferenced versions always survive); and
any retainBuilds below 1 fails with the retention error. -/
theorem prune_retention (refs disk : List GoStr) (k : Nat) (hk : 1 ≤ k) :
    ∃ remaining, pruneStreamProductVersions refs disk (k : Int) = Except.ok remaining ∧
      (∀ v, v ∈ remaining ↔ v ∈ disk ∧ (v ∉ refs ∨ countGreater refs v < k)) ∧
      (disk.Nodup → (remaining.filter (fun v => decide (v ∈ refs))).length ≤ k) ∧
      (∀ r : Int, r < 1 → pruneStreamProductVersions refs disk r =
        Except.error (gs "At least 1 product version must be retained")) := by
  have hnlt : ¬((k : Int) < 1) := by exact_mod_cast Nat.not_lt.mpr hk
  refine ⟨disk.filter (fun v =>
      !(decide (v ∈ refs) && decide ((k : Int) ≤ (countGreater refs v : Int)))),
    ?_, ?_, ?_, ?_⟩
  · unfold pruneStreamProductVersions
    rw [if_neg hnlt]
  · intro v
    rw [List.mem_filter]
    constructor
    · rintro ⟨hd, hp⟩
      refine ⟨hd, ?_⟩
      by_cases hm : v ∈ refs
      · rw [Bool.not_eq_true'] at hp
        right
        by_contra hcount
        have h1 : decide (v ∈ refs) = true := decide_eq_true hm
        have h2 : decide ((k : Int) ≤ (countGreater refs v : Int)) = true := by
          apply decide_eq_true
          exact_mod_cast Nat.le_of_not_lt hcount
        rw [h1, h2] at hp
        exact absurd hp (by simp)
      · exact Or.inl hm
    · rintro ⟨hd, hcase⟩
      refine ⟨hd, ?_⟩
      rw [Bool.not_eq_true']
      rcases hcase with hc | hc
      · rw [decide_eq_false hc, Bool.false_and]
      · have h2 : decide ((k : Int) ≤ (countGreater refs v : Int)) = false := by
          apply decide_eq_false
          intro hle
          have hle2 : k ≤ countGreater refs v := by exact_mod_cast hle
          exact absurd hc (Nat.not_lt.mpr hle2)
        rw [h2, Bool.and_false]
  · intro hdn
    apply nodup_length_le_of_lt_k _ (countGreater refs)
    · exact (hdn.filter _).filter _
    · intro v hv
      have hv1 := List.mem_filter.mp hv
      have hrefs : v ∈ refs := of_decide_eq_true hv1.2
      have hv2 := List.mem_filter.mp hv1.1
      have hp := hv2.2
      rw [Bool.not_eq_true'] at hp
      rw [decide_eq_true hrefs, Bool.true_and] at hp
      have hnle : ¬((k : Int) ≤ (countGreater refs v : Int)) := of_decide_eq_false hp
      have hlt2 : (countGreater refs v : Int) < (k : Int) := lt_of_not_le hnle
      exact_mod_cast hlt2
    · intro v w hv hw heq
      have hvrefs : v ∈ refs := of_decide_eq_true (List.mem_filter.mp hv).2
      have hwrefs : w ∈ refs := of_decide_eq_true (List.mem_filter.mp hw).2
      rcases goStrLt_total v w with he | hlt | hlt
      · exact he
      · exact absurd heq (ne_of_gt (countGreater_lt v w hlt refs hwrefs))
      · exact absurd heq.symm (ne_of_gt (countGreater_lt w v hlt refs hvrefs))
  · intro r hr
    unfold pruneStreamProductVersions
    rw [if_pos hr]

theorem prune_retention_witness :
    pruneStreamProductVersions refsC4 diskC4 ((2 : Nat) : Int) =
      Except.ok [gs "2025_01_01", gs "2026_01_01", gs "2027_01_01", gs "2028_01_01"] ∧
    pruneStreamProductVersions refsC4 diskC4 (-3) =
      Except.error (gs "At least 1 product version must be retained") := by
  obtain ⟨rem, h1, h2, h3, h4⟩ := prune_retention refsC4 diskC4 2 (by decide)
  exact ⟨rfl, h4 (-3) (by decide)⟩

end SSM
